import Mathlib

/-!
# Verification of the webwavecam pixel-transform engine

Shallow embedding of the filter code of `src/main.js` (the current revision,
i.e. the second script in that file) together with the earlier revisions kept
under `src/unnamed/`.  Pixel buffers (JS `Uint8Array`) are modelled as total
functions `Nat → Nat`; every read from an array goes through `rd` (which
masks to a byte, since a `Uint8Array` can only hold bytes) and every store
masks the stored value to a byte exactly where the JS semantics does
(`& 0xff`, `ToUint8` on assignment, or an explicit clamp in the source).

JS 32-bit arithmetic: all intermediate values produced by this code are far
inside the int32 range, so `<< k` is multiplication by `2^k`, and `>> k`
(arithmetic shift) is floor division by `2^k`, which on `Int` is `/`
(`Int.ediv`, floor division for a positive divisor).  `v << 24 >> 24`
(respectively `v << 24 >> 23`) on a byte `v` is sign extension (respectively
sign extension followed by doubling); both are embedded explicitly.
-/

/-- A pixel buffer: index to sample value.  JS `Uint8Array` contents. -/
abbrev Buf := Nat → Nat

/-- Functional array store: `B[i] = v`. -/
def upd (B : Buf) (i v : Nat) : Buf := fun j => if j = i then v else B j

/-- Array read.  A `Uint8Array` only ever holds bytes, so a read is masked. -/
def rd (B : Buf) (i : Nat) : Nat := B i % 256

/-- The all-zero buffer (a freshly allocated `Uint8Array`). -/
def zeroBuf : Buf := fun _ => 0

/-- JS arithmetic right shift on the (small, int32-ranged) values used here:
floor division by `2^n`. -/
def jsShr (x : Int) (n : Nat) : Int := x / 2 ^ n

/-- `ToUint8`/`& 0xff`: what lands in a `Uint8Array` cell. -/
def toU8 (x : Int) : Nat := (x % 256).toNat

/-- JS `v << 24 >> 24`: interpret the low byte of `v` as a signed 8-bit
value. -/
def sext (v : Nat) : Int :=
  if v % 256 < 128 then (v % 256 : Int) else (v % 256 : Int) - 256

/-- JS `(v < 0) ? 0 : ((v > 255) ? 255 : v)`. -/
def clamp255 (v : Int) : Int := if v < 0 then 0 else if v > 255 then 255 else v

/-- Clamp to `0..255` and store (`& 0xff` after the clamp is the identity). -/
def clampU8 (v : Int) : Nat := (clamp255 v).toNat

/-! ## Generic loop combinators

Every loop of the source either writes one scratch/array cell per iteration
(`wr1`), writes two cells per iteration (`wr2`), or is an arbitrary in-place
step iterated in ascending order (`ip`).  `wr1 i v n B` performs, in order,
`B[i 0] = v 0; …; B[i (n-1)] = v (n-1)`; similarly `wr2` performs the two
writes of iteration `k` in source order.  `ip step n B` runs
`step 0; …; step (n-1)`. -/

def wr1 (idx v : Nat → Nat) : Nat → Buf → Buf
  | 0, B => B
  | k + 1, B => upd (wr1 idx v k B) (idx k) (v k)

def wr2 (i1 i2 : Nat → Nat) (v1 v2 : Nat → Nat) : Nat → Buf → Buf
  | 0, B => B
  | k + 1, B => upd (upd (wr2 i1 i2 v1 v2 k B) (i1 k) (v1 k)) (i2 k) (v2 k)

def ip (step : Nat → Buf → Buf) : Nat → Buf → Buf
  | 0, B => B
  | k + 1, B => step k (ip step k B)

/-! ## Luma codec (`lumaFrom`, `invert`, `onebit`)

`lumaFrom` allocates a zero-filled `Uint8Array` of `rgba.length >> 2`
entries and fills entry `i >> 2` for every `i = 0, 4, 8, …` with
`i < rgba.length - 4`; the loop writes pairwise distinct cells reading only
`rgba`, so it is embedded pointwise.  Note the loop bound: the **last** pixel
(at `i = rgba.length - 4`) is never converted and its luma cell keeps the
allocation value `0`. -/

def lumaFrom (len : Nat) (rgba : Buf) : Buf := fun j =>
  if 4 * j < len - 4 then
    (3 * rd rgba (4 * j) + 4 * rd rgba (4 * j + 1) + rd rgba (4 * j + 2)) >>> 3
  else 0

/-- `invert` — in-place loop; iteration `i` reads and writes only cell `i`. -/
def invert (len : Nat) (B : Buf) : Buf :=
  ip (fun i L => upd L i (255 - rd L i)) len B

/-- `onebit` — in-place loop; iteration `i` reads and writes only cell `i`. -/
def onebit (bias : Nat) (len : Nat) (B : Buf) : Buf :=
  ip (fun i L => upd L i (if rd L i < bias then 0 else 255)) len B

/-! ## Haar pair arithmetic (`waveletFwdHaar` inner computation)

Source (both in `waveletFwdHaar` passes):
`a = luma[p] << 2; b = luma[q] << 2; b = (b - a) >> 1; a = a + b;`
then `(a >> 2) & 0xff` and `(b >> 2) & 0xff` are stored. -/

def haarD (a b : Nat) : Int := jsShr ((b : Int) * 4 - (a : Int) * 4) 1

def haarS (a b : Nat) : Int := (a : Int) * 4 + haarD a b

def haarAvgByte (a b : Nat) : Nat := toU8 (jsShr (haarS a b) 2)

def haarDiffByte (a b : Nat) : Nat := toU8 (jsShr (haarD a b) 2)

/-! ## Forward Haar transform (`waveletFwdHaar`, current revision)

One level works on the subregion `cols = w >> (level-1)`,
`rows = h >> (level-1)`: all rows first (pairs `(x, x+1)` into the scratch
`rowBuf` at `x>>1` and `(cols+x)>>1`, then copy back), then all columns
(same vertically, with the "squash" substitution on the average cell when
`squash && level==levels && x < cols>>1`).  The JS scratch arrays are
allocated once per call and reused; every cell the copy loop reads is
freshly written in the same iteration of the enclosing loop (the pair loop
covers indices `0..cols-1` completely), so each use is embedded with a fresh
zero scratch. -/

/-- The pair loop of a horizontal forward-Haar row: for `x = 2k < cols`,
`rowBuf[x>>1] = (a>>2)&0xff` and `rowBuf[(cols+x)>>1] = (b>>2)&0xff`. -/
def fwdHaarRowBuf (cols rowBase : Nat) (B : Buf) : Buf :=
  wr2 (fun k => k) (fun k => (cols + 2 * k) / 2)
    (fun k => haarAvgByte (rd B (rowBase + 2 * k)) (rd B (rowBase + 2 * k + 1)))
    (fun k => haarDiffByte (rd B (rowBase + 2 * k)) (rd B (rowBase + 2 * k + 1)))
    ((cols + 1) / 2) zeroBuf

/-- One row of the forward-Haar horizontal pass: pair loop into `rowBuf`,
then `luma[rowBase+x] = rowBuf[x]` for `x < cols`. -/
def fwdHaarRow (w cols rowBase : Nat) (B : Buf) : Buf :=
  wr1 (fun x => rowBase + x) (fun x => rd (fwdHaarRowBuf cols rowBase B) x) cols B

def fwdHaarRows (w cols rows : Nat) (B : Buf) : Buf :=
  ip (fun y L => fwdHaarRow w cols (y * w) L) rows B

/-- The pair loop of a vertical forward-Haar column, including the squash
substitution on the average cell. -/
def fwdHaarColBuf (w cols rows : Nat) (sq : Bool) (level levels sqbias : Nat)
    (x : Nat) (B : Buf) : Buf :=
  wr2 (fun k => k) (fun k => (rows + 2 * k) / 2)
    (fun k =>
      if sq ∧ level = levels ∧ x < cols >>> 1 then sqbias % 256
      else haarAvgByte (rd B (2 * k * w + x)) (rd B ((2 * k + 1) * w + x)))
    (fun k => haarDiffByte (rd B (2 * k * w + x)) (rd B ((2 * k + 1) * w + x)))
    ((rows + 1) / 2) zeroBuf

/-- One column of the forward-Haar vertical pass: pair loop into `colBuf`,
then `luma[y*w+x] = colBuf[y]` for `y < rows`. -/
def fwdHaarCol (w cols rows : Nat) (sq : Bool) (level levels sqbias : Nat)
    (x : Nat) (B : Buf) : Buf :=
  wr1 (fun y => y * w + x)
    (fun y => rd (fwdHaarColBuf w cols rows sq level levels sqbias x B) y) rows B

def fwdHaarCols (w cols rows : Nat) (sq : Bool) (level levels sqbias : Nat)
    (B : Buf) : Buf :=
  ip (fun x L => fwdHaarCol w cols rows sq level levels sqbias x L) cols B

def fwdHaarLevel (w h : Nat) (sq : Bool) (sqbias levels level : Nat)
    (B : Buf) : Buf :=
  fwdHaarCols w (w >>> (level - 1)) (h >>> (level - 1)) sq level levels sqbias
    (fwdHaarRows w (w >>> (level - 1)) (h >>> (level - 1)) B)

/-- `waveletFwdHaar(w, h, levels, luma)` with the squash configuration
(`SQUASH.checked`, `SQBIAS.value`) passed explicitly; levels run `1..levels`
in ascending order. -/
def waveletFwdHaar (w h levels : Nat) (sq : Bool) (sqbias : Nat) (B : Buf) : Buf :=
  ip (fun k L => fwdHaarLevel w h sq sqbias levels (k + 1) L) levels B

/-! ## Inverse Haar transform

Two revisions are claimed about: the parameterised one
(`waveletInvHaar(w, h, levels, luma, noiseGates, gains, biases)`, first
script of `src/main.js`) and the plain one (current revision, which has no
shaping parameters).  Both share the loop structure: per level, all columns
(pairs `(avg, diff)` at `w*(y>>1)+x` and `w*((rows+y)>>1)+x` into
`colBuf[y]`, `colBuf[y+1]`, then copy back), then all rows. -/

/-- `biasBoost = (bias > 0) ? (1 << bias) : 0`. -/
def biasBoost (bias : Nat) : Nat := if bias > 0 then 2 ^ bias else 0

/-- The per-pair computation of the parameterised inverse Haar:
noise gate, inversion, gain shift, bias boost, clamp. -/
def invHaarPair (ngate gain bB : Nat) (av dv : Nat) : Nat × Nat :=
  let b0 : Int := sext dv
  let b1 : Int := if b0.natAbs < ngate then 0 else b0
  let a1 : Int := (av : Int) - b1
  let b2 : Int := b1 * 2 + a1
  (clampU8 (jsShr a1 gain + (bB : Int)), clampU8 (jsShr b2 gain + (bB : Int)))

/-- The pair loop of an inverse-Haar column: for `y = 2k < rows`, read
`avg` at `w*(y>>1)+x` and `diff` at `w*((rows+y)>>1)+x`, and write the
reconstructed pair to `colBuf[y]`, `colBuf[y+1]`. -/
def invHaarColBufP (w rows : Nat) (ngate gain bB : Nat) (x : Nat) (B : Buf) : Buf :=
  wr2 (fun k => 2 * k) (fun k => 2 * k + 1)
    (fun k => (invHaarPair ngate gain bB
        (rd B (w * k + x)) (rd B (w * ((rows + 2 * k) / 2) + x))).1)
    (fun k => (invHaarPair ngate gain bB
        (rd B (w * k + x)) (rd B (w * ((rows + 2 * k) / 2) + x))).2)
    ((rows + 1) / 2) zeroBuf

def invHaarColP (w cols rows : Nat) (ngate gain bB : Nat) (x : Nat) (B : Buf) : Buf :=
  wr1 (fun y => y * w + x)
    (fun y => rd (invHaarColBufP w rows ngate gain bB x B) y) rows B

/-- The pair loop of an inverse-Haar row: for `x = 2k < cols`, read `avg`
at `rowBase + (x>>1)` and `diff` at `rowBase + ((cols+x)>>1)`, and write the
reconstructed pair to `rowBuf[x]`, `rowBuf[x+1]`. -/
def invHaarRowBufP (cols : Nat) (ngate gain bB : Nat) (rowBase : Nat) (B : Buf) : Buf :=
  wr2 (fun k => 2 * k) (fun k => 2 * k + 1)
    (fun k => (invHaarPair ngate gain bB
        (rd B (rowBase + k)) (rd B (rowBase + (cols + 2 * k) / 2))).1)
    (fun k => (invHaarPair ngate gain bB
        (rd B (rowBase + k)) (rd B (rowBase + (cols + 2 * k) / 2))).2)
    ((cols + 1) / 2) zeroBuf

def invHaarRowP (w cols : Nat) (ngate gain bB : Nat) (rowBase : Nat) (B : Buf) : Buf :=
  wr1 (fun x' => rowBase + x')
    (fun x' => rd (invHaarRowBufP cols ngate gain bB rowBase B) x') cols B

def invHaarColsP (w cols rows : Nat) (ngate gain bB : Nat) (B : Buf) : Buf :=
  ip (fun x L => invHaarColP w cols rows ngate gain bB x L) cols B

def invHaarRowsP (w cols rows : Nat) (ngate gain bB : Nat) (B : Buf) : Buf :=
  ip (fun y L => invHaarRowP w cols ngate gain bB (y * w) L) rows B

/-- One level of the inverse Haar: all columns first, then all rows. -/
def invHaarLevelP (w h : Nat) (ngate gain bias level : Nat) (B : Buf) : Buf :=
  invHaarRowsP w (w >>> (level - 1)) (h >>> (level - 1)) ngate gain
    (biasBoost bias)
    (invHaarColsP w (w >>> (level - 1)) (h >>> (level - 1)) ngate gain
      (biasBoost bias) B)

/-- `waveletInvHaar(w, h, levels, luma, noiseGates, gains, biases)` — levels
run `levels..1` in descending order; the per-level parameters are looked up
at index `level`. -/
def waveletInvHaarP (w h levels : Nat) (ng ga bi : Nat → Nat) (B : Buf) : Buf :=
  ip (fun k L => invHaarLevelP w h (ng (levels - k)) (ga (levels - k))
        (bi (levels - k)) (levels - k) L) levels B

/-! Quick idempotence facts used in several places. -/

theorem rd_upd (B : Buf) (i v j : Nat) :
    rd (upd B i v) j = if j = i then v % 256 else rd B j := by
  unfold rd upd; split <;> rfl

theorem upd_ne (B : Buf) (i v j : Nat) (h : j ≠ i) : upd B i v j = B j := by
  unfold upd; simp [h]

theorem upd_self (B : Buf) (i v : Nat) : upd B i v i = v := by
  unfold upd; simp

theorem rd_ext (B B' : Buf) (j : Nat) (h : B j = B' j) : rd B j = rd B' j := by
  unfold rd; rw [h]

theorem rd_rd (B : Buf) (i : Nat) : rd B i % 256 = rd B i := by
  unfold rd; omega

theorem rd_lt_256 (B : Buf) (i : Nat) : rd B i < 256 := by
  unfold rd; omega

/-! ## C9 — idempotence of `onebit` -/

theorem onebit_untouched (bias n : Nat) (B : Buf) (j : Nat) (h : n ≤ j) :
    onebit bias n B j = B j := by
  induction n with
  | zero => rfl
  | succ k ih =>
      unfold onebit ip
      rw [upd_ne]
      · exact ih (by omega)
      · omega

theorem onebit_read_off (bias : Nat) (n : Nat) (B : Buf) (j : Nat) :
    onebit bias n B j =
      if j < n then (if rd B j < bias then 0 else 255) else B j := by
  induction n with
  | zero => simp [onebit, ip]
  | succ k ih =>
      show upd (onebit bias k B) k
          (if rd (onebit bias k B) k < bias then 0 else 255) j = _
      have hk : rd (onebit bias k B) k = rd B k := by
        unfold rd; rw [onebit_untouched bias k B k (le_refl k)]
      by_cases hj : j = k
      · subst hj
        unfold upd; simp [hk]
      · rw [upd_ne _ _ _ _ hj, ih]
        rcases Nat.lt_or_ge j k with h | h
        · simp [h, Nat.lt_succ_of_lt h]
        · have h1 : ¬ j < k := by omega
          have h2 : ¬ j < k + 1 := by omega
          simp [h1, h2]

/-- C9: `oneBit` applied twice with the same bias yields the same buffer as
applying it once — each sample becomes 0 if below the bias else 255, and a
buffer of 0s and 255s is a fixed point of the operation.  Proven for every
bias (in particular every bias in 0..255) and every buffer length. -/
theorem onebit_idempotent (bias len : Nat) (B : Buf) :
    onebit bias len (onebit bias len B) = onebit bias len B := by
  funext j
  rw [onebit_read_off, onebit_read_off]
  by_cases hj : j < len
  · simp only [hj, if_true]
    have hB : rd (onebit bias len B) j =
        (if rd B j < bias then 0 else 255) := by
      rw [show rd (onebit bias len B) j = onebit bias len B j % 256 from rfl,
        onebit_read_off]
      simp only [hj, if_true]
      by_cases h : rd B j < bias <;> simp [h]
    rw [hB]
    by_cases h : rd B j < bias
    · have h0 : (0 : Nat) < bias := by omega
      simp [h, h0]
    · have h255 : ¬ (255 : Nat) < bias := by
        have := rd_lt_256 B j; omega
      simp [h, h255]
  · simp [hj]

/-! ## C7 — `lumaFrom` skips the last pixel -/

/-- C7 (code bug): on a single fully white pixel `[255,255,255,255]` the
claimed output is `(3*255 + 4*255 + 255) >> 3 = 255`, but the conversion
loop runs only while `i < rgba.length - 4`, so the last pixel of the input
is never converted and its luma cell keeps the allocation value `0`. -/
theorem lumaFrom_last_pixel_bug :
    lumaFrom 4 (fun _ => 255) 0 = 0 ∧
      (3 * 255 + 4 * 255 + 255) >>> 3 = 255 ∧
      lumaFrom 8 (fun _ => 255) 0 = 255 ∧ lumaFrom 8 (fun _ => 255) 1 = 0 := by
  refine ⟨rfl, by decide, by decide, by decide⟩

/-! ## C10 — the stored Haar difference fits a signed byte -/

theorem jsShr_one (x : Int) : jsShr x 1 = x / 2 := by unfold jsShr; norm_num

theorem jsShr_two (x : Int) : jsShr x 2 = x / 4 := by unfold jsShr; norm_num

theorem jsShr_zero (x : Int) : jsShr x 0 = x := by unfold jsShr; simp

theorem clamp255_range (v : Int) : 0 ≤ clamp255 v ∧ clamp255 v ≤ 255 := by
  unfold clamp255; split
  · omega
  · split <;> omega

theorem clampU8_le (v : Int) : clampU8 v ≤ 255 := by
  unfold clampU8
  have := clamp255_range v
  omega

/-- Sign extension after byte-masking recovers any value in `[-128, 127]`. -/
theorem sext_toU8 (d : Int) (h1 : -128 ≤ d) (h2 : d ≤ 127) :
    sext (toU8 d) = d := by
  unfold sext toU8
  split <;> omega

/-- C10: for byte inputs `a`, `b`, the scaled Haar difference that the
forward transform stores — `(((b<<2) - (a<<2)) >> 1) >> 2`, i.e.
`jsShr (haarD a b) 2` — always lies in `[-128, 127]`; hence masking it to
8 bits (`haarDiffByte`) and sign-extending (`sext`) recovers it exactly,
and it equals `floor((b - a) / 2)`. -/
theorem haar_diff_signed_range (a b : Nat) (ha : a ≤ 255) (hb : b ≤ 255) :
    (-128 ≤ jsShr (haarD a b) 2 ∧ jsShr (haarD a b) 2 ≤ 127) ∧
      sext (haarDiffByte a b) = jsShr (haarD a b) 2 ∧
      jsShr (haarD a b) 2 = ((b : Int) - (a : Int)) / 2 := by
  have key : jsShr (haarD a b) 2 = ((b : Int) - (a : Int)) / 2 := by
    unfold haarD jsShr
    norm_num
    omega
  have h1 : -128 ≤ jsShr (haarD a b) 2 := by rw [key]; omega
  have h2 : jsShr (haarD a b) 2 ≤ 127 := by rw [key]; omega
  exact ⟨⟨h1, h2⟩, sext_toU8 _ h1 h2, key⟩

/-- C10 witness at a concrete extreme input. -/
theorem haar_diff_signed_range_witness :
    ((0 : Nat) ≤ 255 ∧ (255 : Nat) ≤ 255) ∧
      ((-128 ≤ jsShr (haarD 255 0) 2 ∧ jsShr (haarD 255 0) 2 ≤ 127) ∧
        sext (haarDiffByte 255 0) = jsShr (haarD 255 0) 2 ∧
        jsShr (haarD 255 0) 2 = ((0 : Int) - (255 : Int)) / 2) :=
  ⟨by decide, haar_diff_signed_range 255 0 (by decide) (by decide)⟩

/-! ## C4 — inverse Haar per-pair shaping formula and clamping -/

/-- C4's claimed per-pair formula, written from the spec's words: gate the
sign-extended diff to 0 when its magnitude is below the gate, then
`a = avg - diff` and `b = 2*diff + a`, then right-shift both by the level's
gain and add `biasBoost = (bias > 0) ? (1 << bias) : 0`, then clamp both to
`[0, 255]`. -/
def invHaarPairClaim (gate gain bias : Nat) (avg diffByte : Nat) : Nat × Nat :=
  let d0 : Int := sext diffByte
  let d : Int := if d0.natAbs < gate then 0 else d0
  let a : Int := (avg : Int) - d
  let b : Int := 2 * d + a
  let bB : Int := if bias > 0 then 2 ^ bias else 0
  (clampU8 (jsShr a gain + bB), clampU8 (jsShr b gain + bB))

/-- C4: each output pair of the (parameterised) inverse Haar transform is
exactly the claimed gated/shifted/boosted/clamped formula, and both outputs
lie in `[0, 255]` for every input — the clamp is applied after the bias
boost, so no wrap past 255 can occur. -/
theorem invHaar_pair_shaping (gate gain bias avg diffByte : Nat)
    (hgate : gate ≤ 255) (hgain : gain ≤ 7) (hbias : bias ≤ 7)
    (havg : avg ≤ 255) (hdiff : diffByte ≤ 255) :
    invHaarPair gate gain (biasBoost bias) avg diffByte =
        invHaarPairClaim gate gain bias avg diffByte ∧
      (invHaarPair gate gain (biasBoost bias) avg diffByte).1 ≤ 255 ∧
      (invHaarPair gate gain (biasBoost bias) avg diffByte).2 ≤ 255 := by
  refine ⟨?_, clampU8_le _, clampU8_le _⟩
  simp only [invHaarPair, invHaarPairClaim, biasBoost]
  have hcast : ((if bias > 0 then 2 ^ bias else 0 : Nat) : Int)
      = (if bias > 0 then 2 ^ bias else 0 : Int) := by
    split <;> simp
  rw [hcast]
  have harith : ∀ d : Int, d * 2 + ((avg : Int) - d) = 2 * d + ((avg : Int) - d) := by
    intro d; ring
  rw [harith]

/-- C4 witness: an all-255 pair (avg 255, stored diff byte 255, i.e. signed
diff −1) with gate 0, gain 0, bias 7 stays within `[0, 255]`. -/
theorem invHaar_pair_shaping_witness :
    ((0 : Nat) ≤ 255 ∧ (0 : Nat) ≤ 7 ∧ (7 : Nat) ≤ 7 ∧ (255 : Nat) ≤ 255) ∧
      (invHaarPair 0 0 (biasBoost 7) 255 255 =
          invHaarPairClaim 0 0 7 255 255 ∧
        (invHaarPair 0 0 (biasBoost 7) 255 255).1 ≤ 255 ∧
        (invHaarPair 0 0 (biasBoost 7) 255 255).2 ≤ 255) :=
  ⟨by decide, invHaar_pair_shaping 0 0 7 255 255 (by decide) (by decide)
    (by decide) (by decide) (by decide)⟩

/-! ## Auto-contrast (`autoContrastHistogram`)

`binShift = 1`, `bins = 128`, `binSize = 2`.  The histogram is a
`Uint32Array` (counts, no byte masking); the peak scans carry the peak index
in a plain JS number initialised to `-1`, so the peak state is embedded as
an `Int`.  The final adjustment loop reads and writes only cell `i` at
iteration `i`.  The luma array the source iterates over has `w * h`
entries. -/

/-- Histogram build loop: `histo[Y >> binShift] += 1` for each sample. -/
def histAcc (len : Nat) (L : Buf) : Buf :=
  ip (fun i H => upd H (rd L i >>> 1) (H (rd L i >>> 1) + 1)) len zeroBuf

/-- `histo.map(n => n >> 10)`. -/
def histScaled (len : Nat) (L : Buf) : Buf := fun b => histAcc len L b >>> 10

/-- Running minimum of the samples, initialised to 255. -/
def minLuma (L : Buf) : Nat → Nat
  | 0 => 255
  | i + 1 => if rd L i < minLuma L i then rd L i else minLuma L i

/-- Running maximum of the samples, initialised to 0. -/
def maxLuma (L : Buf) : Nat → Nat
  | 0 => 0
  | i + 1 => if rd L i > maxLuma L i then rd L i else maxLuma L i

/-- Ascending peak scan (`firstPeak`): `fuel` iterations starting at bucket
`i`, peak state `fp` (−1 = not found); a bucket strictly below the current
peak stops the scan. -/
def scanFP (H : Buf) : Nat → Nat → Int → Int
  | 0, _, fp => fp
  | fuel + 1, i, fp =>
      if fp < 0 ∧ 0 < H i then scanFP H fuel (i + 1) (i : Int)
      else if 0 ≤ fp ∧ H i < H fp.toNat then fp
      else if 0 ≤ fp ∧ H fp.toNat ≤ H i then scanFP H fuel (i + 1) (i : Int)
      else scanFP H fuel (i + 1) fp

/-- Descending peak scan (`lastPeak`): runs for `i = bins-1, …, 1`. -/
def scanLP (H : Buf) : Nat → Nat → Int → Int
  | 0, _, lp => lp
  | fuel + 1, i, lp =>
      if lp < 0 ∧ 0 < H i then scanLP H fuel (i - 1) (i : Int)
      else if 0 ≤ lp ∧ H i < H lp.toNat then lp
      else if 0 ≤ lp ∧ H lp.toNat ≤ H i then scanLP H fuel (i - 1) (i : Int)
      else scanLP H fuel (i - 1) lp

def firstPeak (H : Buf) : Int := scanFP H 128 0 (-1)

def lastPeak (H : Buf) : Int := scanLP H 127 127 (-1)

/-- The cutoff: peak-based when both peaks were found in order, otherwise
the min/max midpoint fallback. -/
def acCutoff (len : Nat) (L : Buf) : Int :=
  let H := histScaled len L
  let fp := firstPeak H
  let lp := lastPeak H
  if 0 ≤ fp ∧ 0 ≤ lp ∧ fp < lp then 127 - jsShr ((fp + lp) * 2) 1
  else (minLuma L len : Int) +
    jsShr ((maxLuma L len : Int) - (minLuma L len : Int)) 1

/-- Per-sample adjustment: `Y = luma[i] + cutoff`, clamped high-then-low as
in the source. -/
def acAdjust (v : Nat) (cutoff : Int) : Nat :=
  (if (v : Int) + cutoff > 255 then 255
   else if (v : Int) + cutoff < 0 then 0 else (v : Int) + cutoff).toNat

def autoContrastHistogram (w h : Nat) (L : Buf) : Buf :=
  ip (fun i L' => upd L' i (acAdjust (rd L' i) (acCutoff (w * h) L))) (w * h) L

theorem acA_untouched (c : Int) (L0 : Buf) (n j : Nat) :
    n ≤ j → ip (fun i L' => upd L' i (acAdjust (rd L' i) c)) n L0 j = L0 j := by
  induction n with
  | zero => intro _; rfl
  | succ k ih =>
      intro h
      show upd _ k _ j = _
      rw [upd_ne _ _ _ _ (by omega)]
      exact ih (by omega)

/-- C8: every sample of the auto-contrast output is the input sample plus
the cutoff, clamped to `[0, 255]`; the cutoff is
`127 - (((firstPeak + lastPeak) * 2) >> 1)` when both peaks are found with
`firstPeak < lastPeak`, and `minSample + ((maxSample - minSample) >> 1)`
otherwise. -/
theorem autoContrast_adds_cutoff (w h : Nat) (L : Buf) (i : Nat)
    (hi : i < w * h) :
    autoContrastHistogram w h L i =
      acAdjust (rd L i)
        (if 0 ≤ firstPeak (histScaled (w * h) L) ∧
            0 ≤ lastPeak (histScaled (w * h) L) ∧
            firstPeak (histScaled (w * h) L) < lastPeak (histScaled (w * h) L)
         then 127 - jsShr ((firstPeak (histScaled (w * h) L) +
            lastPeak (histScaled (w * h) L)) * 2) 1
         else (minLuma L (w * h) : Int) +
            jsShr ((maxLuma L (w * h) : Int) - (minLuma L (w * h) : Int)) 1) := by
  have hcut : acCutoff (w * h) L =
      (if 0 ≤ firstPeak (histScaled (w * h) L) ∧
          0 ≤ lastPeak (histScaled (w * h) L) ∧
          firstPeak (histScaled (w * h) L) < lastPeak (histScaled (w * h) L)
       then 127 - jsShr ((firstPeak (histScaled (w * h) L) +
          lastPeak (histScaled (w * h) L)) * 2) 1
       else (minLuma L (w * h) : Int) +
          jsShr ((maxLuma L (w * h) : Int) - (minLuma L (w * h) : Int)) 1) := rfl
  rw [← hcut]
  set c := acCutoff (w * h) L with hc
  have main : ∀ n, ∀ j < n, n ≤ w * h →
      ip (fun i L' => upd L' i (acAdjust (rd L' i) c)) n L j
        = acAdjust (rd L j) c := by
    intro n
    induction n with
    | zero => intro j hj; omega
    | succ k ih =>
        intro j hj hn
        show upd _ k _ j = _
        by_cases hjk : j = k
        · subst hjk
          rw [upd_self]
          exact congrArg (fun v => acAdjust v c)
            (rd_ext _ _ _ (acA_untouched c L j j (le_refl j)))
        · rw [upd_ne _ _ _ _ hjk]
          exact ih j (by omega) (by omega)
  exact main (w * h) i hi (le_refl _)

/-- C8 witness at a concrete 2×2 buffer. -/
theorem autoContrast_adds_cutoff_witness :
    (0 : Nat) < 2 * 2 ∧
      autoContrastHistogram 2 2 (fun i => 40 * i) 0 =
        acAdjust (rd (fun i => 40 * i) 0)
          (if 0 ≤ firstPeak (histScaled (2 * 2) (fun i => 40 * i)) ∧
              0 ≤ lastPeak (histScaled (2 * 2) (fun i => 40 * i)) ∧
              firstPeak (histScaled (2 * 2) (fun i => 40 * i)) <
                lastPeak (histScaled (2 * 2) (fun i => 40 * i))
           then 127 - jsShr ((firstPeak (histScaled (2 * 2) (fun i => 40 * i)) +
              lastPeak (histScaled (2 * 2) (fun i => 40 * i))) * 2) 1
           else (minLuma (fun i => 40 * i) (2 * 2) : Int) +
              jsShr ((maxLuma (fun i => 40 * i) (2 * 2) : Int) -
                (minLuma (fun i => 40 * i) (2 * 2) : Int)) 1) :=
  ⟨by decide, autoContrast_adds_cutoff 2 2 (fun i => 40 * i) 0 (by decide)⟩

/-! ## Read-off lemmas for the loop combinators -/

theorem toU8_lt (v : Int) : toU8 v < 256 := by
  unfold toU8; omega

theorem wr1_untouched (idx v : Nat → Nat) (n : Nat) (B : Buf) (j : Nat)
    (h : ∀ k, k < n → idx k ≠ j) : wr1 idx v n B j = B j := by
  induction n with
  | zero => rfl
  | succ m ih =>
      show upd _ (idx m) (v m) j = _
      rw [upd_ne _ _ _ _ (fun hj => h m (by omega) hj.symm)]
      exact ih (fun k hk => h k (by omega))

theorem wr1_hit (idx v : Nat → Nat) (n : Nat) (B : Buf) (k : Nat)
    (hk : k < n) (h : ∀ k', k < k' → k' < n → idx k' ≠ idx k) :
    wr1 idx v n B (idx k) = v k := by
  induction n with
  | zero => omega
  | succ m ih =>
      show upd _ (idx m) (v m) (idx k) = _
      by_cases hkm : k = m
      · subst hkm; exact upd_self _ _ _
      · rw [upd_ne _ _ _ _ (fun hj => h m (by omega) (by omega) hj.symm)]
        exact ih (by omega) (fun k' h1 h2 => h k' h1 (by omega))

theorem wr2_untouched (i1 i2 v1 v2 : Nat → Nat) (n : Nat) (B : Buf) (j : Nat)
    (h1 : ∀ k, k < n → i1 k ≠ j) (h2 : ∀ k, k < n → i2 k ≠ j) :
    wr2 i1 i2 v1 v2 n B j = B j := by
  induction n with
  | zero => rfl
  | succ m ih =>
      show upd (upd _ (i1 m) (v1 m)) (i2 m) (v2 m) j = _
      rw [upd_ne _ _ _ _ (fun hj => h2 m (by omega) hj.symm),
        upd_ne _ _ _ _ (fun hj => h1 m (by omega) hj.symm)]
      exact ih (fun k hk => h1 k (by omega)) (fun k hk => h2 k (by omega))

theorem wr2_hit1 (i1 i2 v1 v2 : Nat → Nat) (n : Nat) (B : Buf) (k : Nat)
    (hk : k < n)
    (h1 : ∀ k', k < k' → k' < n → i1 k' ≠ i1 k)
    (h2 : ∀ k', k ≤ k' → k' < n → i2 k' ≠ i1 k) :
    wr2 i1 i2 v1 v2 n B (i1 k) = v1 k := by
  induction n with
  | zero => omega
  | succ m ih =>
      show upd (upd _ (i1 m) (v1 m)) (i2 m) (v2 m) (i1 k) = _
      by_cases hkm : k = m
      · subst hkm
        rw [upd_ne _ _ _ _ (fun hj => h2 k (le_refl k) (by omega) hj.symm)]
        exact upd_self _ _ _
      · rw [upd_ne _ _ _ _ (fun hj => h2 m (by omega) (by omega) hj.symm),
          upd_ne _ _ _ _ (fun hj => h1 m (by omega) (by omega) hj.symm)]
        exact ih (by omega) (fun k' ha hb => h1 k' ha (by omega))
          (fun k' ha hb => h2 k' ha (by omega))

theorem wr2_hit2 (i1 i2 v1 v2 : Nat → Nat) (n : Nat) (B : Buf) (k : Nat)
    (hk : k < n)
    (h1 : ∀ k', k < k' → k' < n → i1 k' ≠ i2 k)
    (h2 : ∀ k', k < k' → k' < n → i2 k' ≠ i2 k) :
    wr2 i1 i2 v1 v2 n B (i2 k) = v2 k := by
  induction n with
  | zero => omega
  | succ m ih =>
      show upd (upd _ (i1 m) (v1 m)) (i2 m) (v2 m) (i2 k) = _
      by_cases hkm : k = m
      · subst hkm; exact upd_self _ _ _
      · rw [upd_ne _ _ _ _ (fun hj => h2 m (by omega) (by omega) hj.symm),
          upd_ne _ _ _ _ (fun hj => h1 m (by omega) (by omega) hj.symm)]
        exact ih (by omega) (fun k' ha hb => h1 k' ha (by omega))
          (fun k' ha hb => h2 k' ha (by omega))

/-! ## Coordinate arithmetic helpers -/

theorem coord_inj (w x x' y y' : Nat) (hx : x < w) (hx' : x' < w)
    (h : y * w + x = y' * w + x') : y = y' ∧ x = x' := by
  have hm : (w * y + x) % w = (w * y' + x') % w := by
    rw [mul_comm w y, mul_comm w y', h]
  rw [Nat.mul_add_mod, Nat.mul_add_mod, Nat.mod_eq_of_lt hx,
    Nat.mod_eq_of_lt hx'] at hm
  subst hm
  refine ⟨?_, rfl⟩
  have h2 : y * w = y' * w := by omega
  exact Nat.eq_of_mul_eq_mul_right (by omega) h2

theorem row_lt_row (w y m x x' : Nat) (hx : x < w) (hym : y < m) :
    y * w + x < m * w + x' := by
  have h1 : y * w + x < (y + 1) * w := by
    have : (y + 1) * w = y * w + w := by ring
    omega
  have h2 : (y + 1) * w ≤ m * w := Nat.mul_le_mul_right w hym
  omega

/-! ## Read-off of the forward-Haar passes -/

theorem haarAvgByte_lt (a b : Nat) : haarAvgByte a b < 256 := toU8_lt _

theorem haarDiffByte_lt (a b : Nat) : haarDiffByte a b < 256 := toU8_lt _

theorem haarAvgByte_same (c : Nat) (hc : c ≤ 255) : haarAvgByte c c = c := by
  unfold haarAvgByte haarS haarD jsShr toU8
  norm_num
  omega

theorem haarDiffByte_same (c : Nat) : haarDiffByte c c = 0 := by
  unfold haarDiffByte haarD jsShr toU8
  norm_num

theorem fwdHaarRowBuf_avg (cols rowBase : Nat) (B : Buf) (hc : cols % 2 = 0)
    (k : Nat) (hk : k < cols / 2) :
    fwdHaarRowBuf cols rowBase B k =
      haarAvgByte (rd B (rowBase + 2 * k)) (rd B (rowBase + 2 * k + 1)) := by
  unfold fwdHaarRowBuf
  exact wr2_hit1 _ _ _ _ _ _ k (by omega)
    (fun k' h1 h2 => by omega) (fun k' h1 h2 => by omega)

theorem fwdHaarRowBuf_diff (cols rowBase : Nat) (B : Buf) (hc : cols % 2 = 0)
    (k : Nat) (hk : k < cols / 2) :
    fwdHaarRowBuf cols rowBase B (cols / 2 + k) =
      haarDiffByte (rd B (rowBase + 2 * k)) (rd B (rowBase + 2 * k + 1)) := by
  unfold fwdHaarRowBuf
  have hidx : cols / 2 + k = (cols + 2 * k) / 2 := by omega
  rw [hidx]
  exact wr2_hit2 _ _ _ _ _ _ k (by omega)
    (fun k' h1 h2 => by omega) (fun k' h1 h2 => by omega)

theorem fwdHaarRow_in (w cols rowBase : Nat) (B : Buf) (hc : cols % 2 = 0)
    (x : Nat) (hx : x < cols) :
    fwdHaarRow w cols rowBase B (rowBase + x) =
      if x < cols / 2 then
        haarAvgByte (rd B (rowBase + 2 * x)) (rd B (rowBase + 2 * x + 1))
      else
        haarDiffByte (rd B (rowBase + 2 * (x - cols / 2)))
          (rd B (rowBase + 2 * (x - cols / 2) + 1)) := by
  unfold fwdHaarRow
  rw [wr1_hit _ _ cols B x hx (fun k' h1 h2 => by omega)]
  by_cases hxh : x < cols / 2
  · rw [if_pos hxh,
      show rd (fwdHaarRowBuf cols rowBase B) x
          = fwdHaarRowBuf cols rowBase B x % 256 from rfl,
      fwdHaarRowBuf_avg cols rowBase B hc x hxh,
      Nat.mod_eq_of_lt (haarAvgByte_lt _ _)]
  · rw [if_neg hxh,
      show rd (fwdHaarRowBuf cols rowBase B) x
          = fwdHaarRowBuf cols rowBase B x % 256 from rfl]
    conv_lhs => rw [show x = cols / 2 + (x - cols / 2) from by omega]
    rw [fwdHaarRowBuf_diff cols rowBase B hc (x - cols / 2) (by omega),
      Nat.mod_eq_of_lt (haarDiffByte_lt _ _)]

theorem fwdHaarRow_out (w cols rowBase : Nat) (B : Buf) (j : Nat)
    (hj : ¬(rowBase ≤ j ∧ j < rowBase + cols)) :
    fwdHaarRow w cols rowBase B j = B j := by
  unfold fwdHaarRow
  exact wr1_untouched _ _ cols B j (fun k hk => by omega)

theorem fwdHaarRows_eq (w cols : Nat) (B : Buf) (hc : cols % 2 = 0)
    (hcw : cols ≤ w) (hw : 0 < w) :
    ∀ rows,
      (∀ y x, y < rows → x < cols →
        fwdHaarRows w cols rows B (y * w + x) =
          if x < cols / 2 then
            haarAvgByte (rd B (y * w + 2 * x)) (rd B (y * w + 2 * x + 1))
          else
            haarDiffByte (rd B (y * w + 2 * (x - cols / 2)))
              (rd B (y * w + 2 * (x - cols / 2) + 1))) ∧
      (∀ j, (∀ y x, y < rows → x < cols → j ≠ y * w + x) →
        fwdHaarRows w cols rows B j = B j) := by
  intro rows
  induction rows with
  | zero => exact ⟨fun y x hy hx => by omega, fun j hj => rfl⟩
  | succ m ih =>
      obtain ⟨ih1, ih2⟩ := ih
      have hstep : fwdHaarRows w cols (m + 1) B
          = fwdHaarRow w cols (m * w) (fwdHaarRows w cols m B) := rfl
      have hread : ∀ i, m * w ≤ i → i < m * w + cols →
          rd (fwdHaarRows w cols m B) i = rd B i := by
        intro i hi1 hi2
        apply rd_ext
        apply ih2
        intro y' x' hy' hx' heq
        have hlt := row_lt_row w y' m x' 0 (lt_of_lt_of_le hx' hcw) hy'
        omega
      constructor
      · intro y x hy hx
        rw [hstep]
        by_cases hym : y = m
        · subst hym
          rw [fwdHaarRow_in w cols (y * w) _ hc x hx]
          by_cases hxh : x < cols / 2
          · rw [if_pos hxh, if_pos hxh,
              hread (y * w + 2 * x) (by omega) (by omega),
              hread (y * w + 2 * x + 1) (by omega) (by omega)]
          · rw [if_neg hxh, if_neg hxh,
              hread (y * w + 2 * (x - cols / 2)) (by omega) (by omega),
              hread (y * w + 2 * (x - cols / 2) + 1) (by omega) (by omega)]
        · have hy' : y < m := by omega
          rw [fwdHaarRow_out]
          · exact ih1 y x hy' hx
          · intro hcontra
            have hlt := row_lt_row w y m x 0 (lt_of_lt_of_le hx hcw) hy'
            omega
      · intro j hj
        rw [hstep, fwdHaarRow_out]
        · exact ih2 j (fun y x hy hx => hj y x (by omega) hx)
        · intro hcontra
          exact hj m (j - m * w) (by omega) (by omega) (by omega)

theorem fwdHaarColBuf_avg (w cols rows : Nat) (sq : Bool)
    (level levels sqbias x : Nat) (B : Buf) (hr : rows % 2 = 0)
    (k : Nat) (hk : k < rows / 2) :
    fwdHaarColBuf w cols rows sq level levels sqbias x B k =
      if sq ∧ level = levels ∧ x < cols >>> 1 then sqbias % 256
      else haarAvgByte (rd B (2 * k * w + x)) (rd B ((2 * k + 1) * w + x)) := by
  unfold fwdHaarColBuf
  exact wr2_hit1 _ _ _ _ _ _ k (by omega)
    (fun k' h1 h2 => by omega) (fun k' h1 h2 => by omega)

theorem fwdHaarColBuf_diff (w cols rows : Nat) (sq : Bool)
    (level levels sqbias x : Nat) (B : Buf) (hr : rows % 2 = 0)
    (k : Nat) (hk : k < rows / 2) :
    fwdHaarColBuf w cols rows sq level levels sqbias x B (rows / 2 + k) =
      haarDiffByte (rd B (2 * k * w + x)) (rd B ((2 * k + 1) * w + x)) := by
  unfold fwdHaarColBuf
  have hidx : rows / 2 + k = (rows + 2 * k) / 2 := by omega
  rw [hidx]
  exact wr2_hit2 _ _ _ _ _ _ k (by omega)
    (fun k' h1 h2 => by omega) (fun k' h1 h2 => by omega)

theorem fwdHaarCol_in (w cols rows : Nat) (sq : Bool)
    (level levels sqbias x : Nat) (B : Buf) (hr : rows % 2 = 0) (hxw : x < w)
    (y : Nat) (hy : y < rows) :
    fwdHaarCol w cols rows sq level levels sqbias x B (y * w + x) =
      if y < rows / 2 then
        (if sq ∧ level = levels ∧ x < cols >>> 1 then sqbias % 256
         else haarAvgByte (rd B (2 * y * w + x)) (rd B ((2 * y + 1) * w + x)))
      else
        haarDiffByte (rd B (2 * (y - rows / 2) * w + x))
          (rd B ((2 * (y - rows / 2) + 1) * w + x)) := by
  unfold fwdHaarCol
  rw [wr1_hit _ _ rows B y hy (fun y' h1 h2 heq =>
    absurd (coord_inj w x x y' y hxw hxw heq).1 (by omega))]
  by_cases hyh : y < rows / 2
  · rw [if_pos hyh,
      show rd (fwdHaarColBuf w cols rows sq level levels sqbias x B) y
          = fwdHaarColBuf w cols rows sq level levels sqbias x B y % 256 from rfl,
      fwdHaarColBuf_avg w cols rows sq level levels sqbias x B hr y hyh]
    by_cases hsq : sq ∧ level = levels ∧ x < cols >>> 1
    · rw [if_pos hsq]
      omega
    · rw [if_neg hsq]
      exact Nat.mod_eq_of_lt (haarAvgByte_lt _ _)
  · rw [if_neg hyh,
      show rd (fwdHaarColBuf w cols rows sq level levels sqbias x B) y
          = fwdHaarColBuf w cols rows sq level levels sqbias x B y % 256 from rfl]
    conv_lhs => rw [show y = rows / 2 + (y - rows / 2) from by omega]
    rw [fwdHaarColBuf_diff w cols rows sq level levels sqbias x B hr
        (y - rows / 2) (by omega),
      Nat.mod_eq_of_lt (haarDiffByte_lt _ _)]

theorem fwdHaarCol_out (w cols rows : Nat) (sq : Bool)
    (level levels sqbias x : Nat) (B : Buf) (j : Nat)
    (hj : ∀ y, y < rows → j ≠ y * w + x) :
    fwdHaarCol w cols rows sq level levels sqbias x B j = B j := by
  unfold fwdHaarCol
  exact wr1_untouched _ _ rows B j (fun y hy heq => hj y hy heq.symm)

theorem fwdHaarCols_eq (w cols rows : Nat) (sq : Bool)
    (level levels sqbias : Nat) (B : Buf) (hr : rows % 2 = 0)
    (hcw : cols ≤ w) :
    ∀ m, m ≤ cols →
      (∀ y x, y < rows → x < m →
        ip (fun x' L => fwdHaarCol w cols rows sq level levels sqbias x' L) m B
            (y * w + x) =
          if y < rows / 2 then
            (if sq ∧ level = levels ∧ x < cols >>> 1 then sqbias % 256
             else haarAvgByte (rd B (2 * y * w + x)) (rd B ((2 * y + 1) * w + x)))
          else
            haarDiffByte (rd B (2 * (y - rows / 2) * w + x))
              (rd B ((2 * (y - rows / 2) + 1) * w + x))) ∧
      (∀ j, (∀ y x, y < rows → x < m → j ≠ y * w + x) →
        ip (fun x' L => fwdHaarCol w cols rows sq level levels sqbias x' L) m B
          j = B j) := by
  intro m
  induction m with
  | zero => exact fun _ => ⟨fun y x hy hx => by omega, fun j hj => rfl⟩
  | succ m ih =>
      intro hm
      obtain ⟨ih1, ih2⟩ := ih (by omega)
      have hmw : m < w := by omega
      have hstep : ip (fun x' L => fwdHaarCol w cols rows sq level levels
            sqbias x' L) (m + 1) B
          = fwdHaarCol w cols rows sq level levels sqbias m
            (ip (fun x' L => fwdHaarCol w cols rows sq level levels sqbias x' L)
              m B) := rfl
      have hread : ∀ yr, yr < rows →
          rd (ip (fun x' L => fwdHaarCol w cols rows sq level levels sqbias x' L)
              m B) (yr * w + m)
            = rd B (yr * w + m) := by
        intro yr hyr
        apply rd_ext
        apply ih2
        intro y' x' hy' hx' heq
        exact absurd (coord_inj w m x' yr y' hmw (by omega) heq).2 (by omega)
      constructor
      · intro y x hy hx
        rw [hstep]
        by_cases hxm : x = m
        · subst hxm
          rw [fwdHaarCol_in w cols rows sq level levels sqbias x _ hr
            (by omega) y hy]
          by_cases hyh : y < rows / 2
          · rw [if_pos hyh, if_pos hyh,
              hread (2 * y) (by omega), hread (2 * y + 1) (by omega)]
          · rw [if_neg hyh, if_neg hyh,
              hread (2 * (y - rows / 2)) (by omega),
              hread (2 * (y - rows / 2) + 1) (by omega)]
        · rw [fwdHaarCol_out w cols rows sq level levels sqbias m _ (y * w + x)
            (fun y' hy' heq =>
              absurd (coord_inj w x m y y' (by omega) hmw heq).2 hxm)]
          exact ih1 y x hy (by omega)
      · intro j hj
        rw [hstep,
          fwdHaarCol_out w cols rows sq level levels sqbias m _ j
            (fun y' hy' => hj y' m hy' (by omega))]
        exact ih2 j (fun y x hy hx => hj y x hy (by omega))

/-! ## Arithmetic helpers on shifts and divisibility -/

theorem ip_congr (f g : Nat → Buf → Buf) (n : Nat) (B : Buf)
    (h : ∀ k, k < n → ∀ L, f k L = g k L) : ip f n B = ip g n B := by
  induction n with
  | zero => rfl
  | succ m ih =>
      show f m (ip f m B) = g m (ip g m B)
      rw [ih (fun k hk L => h k (by omega) L), h m (by omega)]

theorem shiftRight_le_self (n k : Nat) : n >>> k ≤ n := by
  rw [Nat.shiftRight_eq_div_pow]; exact Nat.div_le_self _ _

theorem shiftRight_succ_div (n k : Nat) : (n >>> k) / 2 = n >>> (k + 1) := by
  rw [Nat.shiftRight_eq_div_pow, Nat.shiftRight_eq_div_pow,
    Nat.div_div_eq_div_mul, pow_succ]

theorem shiftRight_one_div (n : Nat) : n >>> 1 = n / 2 := by
  rw [Nat.shiftRight_eq_div_pow, pow_one]

theorem div_pow_even (n L m : Nat) (hd : 2 ^ L ∣ n) (hm : m < L) :
    (n >>> m) % 2 = 0 := by
  rw [Nat.shiftRight_eq_div_pow]
  obtain ⟨t, rfl⟩ := hd
  rw [show L = m + (L - m) from by omega, pow_add, mul_assoc,
    Nat.mul_div_cancel_left _ (Nat.pos_pow_of_pos m (by omega))]
  have h2 : 2 ^ (L - m) = 2 * 2 ^ (L - m - 1) := by
    conv_lhs => rw [show L - m = 1 + (L - m - 1) from by omega]
    rw [pow_add, pow_one]
  have h3 : 2 ^ (L - m) * t = 2 * (2 ^ (L - m - 1) * t) := by rw [h2]; ring
  omega

theorem coord_mod_div (w y x : Nat) (hx : x < w) :
    (y * w + x) % w = x ∧ (y * w + x) / w = y := by
  constructor
  · rw [mul_comm y w, Nat.mul_add_mod, Nat.mod_eq_of_lt hx]
  · rw [mul_comm y w, Nat.mul_add_div (by omega), Nat.div_eq_of_lt hx]
    omega

/-! ## One forward-Haar level on a constant region (squash off) -/

theorem fwdHaarLevel_const (w h : Nat) (sqbias levels level c : Nat) (B : Buf)
    (hc255 : c ≤ 255) (hw : 0 < w)
    (hc2 : (w >>> (level - 1)) % 2 = 0) (hr2 : (h >>> (level - 1)) % 2 = 0)
    (hconst : ∀ y x, y < h >>> (level - 1) → x < w >>> (level - 1) →
      rd B (y * w + x) = c) :
    (∀ y x, y < h >>> (level - 1) → x < w >>> (level - 1) →
      fwdHaarLevel w h false sqbias levels level B (y * w + x) =
        if x < (w >>> (level - 1)) / 2 ∧ y < (h >>> (level - 1)) / 2 then c
        else 0) ∧
    (∀ j, (∀ y x, y < h >>> (level - 1) → x < w >>> (level - 1) →
        j ≠ y * w + x) →
      fwdHaarLevel w h false sqbias levels level B j = B j) := by
  have hcw : w >>> (level - 1) ≤ w := shiftRight_le_self _ _
  obtain ⟨hr1, hr2'⟩ := fwdHaarRows_eq w (w >>> (level - 1)) B hc2 hcw hw
    (h >>> (level - 1))
  -- after the horizontal pass every processed row is [c…c|0…0]
  have hB1 : ∀ y x, y < h >>> (level - 1) → x < w >>> (level - 1) →
      fwdHaarRows w (w >>> (level - 1)) (h >>> (level - 1)) B (y * w + x)
        = if x < (w >>> (level - 1)) / 2 then c else 0 := by
    intro y x hy hx
    rw [hr1 y x hy hx]
    by_cases hxh : x < (w >>> (level - 1)) / 2
    · rw [if_pos hxh, if_pos hxh, hconst y (2 * x) hy (by omega),
        show y * w + 2 * x + 1 = y * w + (2 * x + 1) from by omega,
        hconst y (2 * x + 1) hy (by omega), haarAvgByte_same c hc255]
    · rw [if_neg hxh, if_neg hxh,
        hconst y (2 * (x - (w >>> (level - 1)) / 2)) hy (by omega),
        show y * w + 2 * (x - (w >>> (level - 1)) / 2) + 1
            = y * w + (2 * (x - (w >>> (level - 1)) / 2) + 1) from by omega,
        hconst y (2 * (x - (w >>> (level - 1)) / 2) + 1) hy (by omega),
        haarDiffByte_same]
  have hB1rd : ∀ y x, y < h >>> (level - 1) → x < w >>> (level - 1) →
      rd (fwdHaarRows w (w >>> (level - 1)) (h >>> (level - 1)) B) (y * w + x)
        = if x < (w >>> (level - 1)) / 2 then c else 0 := by
    intro y x hy hx
    show fwdHaarRows w (w >>> (level - 1)) (h >>> (level - 1)) B (y * w + x)
        % 256 = _
    rw [hB1 y x hy hx]
    split <;> omega
  obtain ⟨hcA, hcB⟩ := fwdHaarCols_eq w (w >>> (level - 1)) (h >>> (level - 1))
    false level levels sqbias
    (fwdHaarRows w (w >>> (level - 1)) (h >>> (level - 1)) B) hr2 hcw
    (w >>> (level - 1)) (le_refl _)
  constructor
  · intro y x hy hx
    show ip _ (w >>> (level - 1)) _ (y * w + x) = _
    rw [hcA y x hy hx]
    have hsqf : ¬((false : Bool) ∧ level = levels ∧ x < (w >>> (level - 1)) >>> 1) := by
      intro hcon
      exact Bool.false_ne_true hcon.1
    by_cases hyh : y < (h >>> (level - 1)) / 2
    · rw [if_pos hyh, if_neg hsqf,
        hB1rd (2 * y) x (by omega) hx, hB1rd (2 * y + 1) x (by omega) hx]
      by_cases hxh : x < (w >>> (level - 1)) / 2
      · rw [if_pos hxh, haarAvgByte_same c hc255,
          if_pos (And.intro hxh hyh)]
      · rw [if_neg hxh, haarAvgByte_same 0 (by omega),
          if_neg (fun hcon => hxh hcon.1)]
    · rw [if_neg hyh,
        hB1rd (2 * (y - (h >>> (level - 1)) / 2)) x (by omega) hx,
        hB1rd (2 * (y - (h >>> (level - 1)) / 2) + 1) x (by omega) hx]
      by_cases hxh : x < (w >>> (level - 1)) / 2
      · rw [if_pos hxh, haarDiffByte_same,
          if_neg (fun hcon => hyh hcon.2)]
      · rw [if_neg hxh, haarDiffByte_same,
          if_neg (fun hcon => hyh hcon.2)]
  · intro j hj
    show ip _ (w >>> (level - 1)) _ j = _
    rw [hcB j hj]
    exact hr2' j hj

/-! ## Full forward Haar on a constant buffer (squash off) -/

theorem waveletFwdHaar_const_inv (w h levels c : Nat) (B : Buf) (sqbias : Nat)
    (hc255 : c ≤ 255) (hw : 0 < w)
    (hdw : 2 ^ levels ∣ w) (hdh : 2 ^ levels ∣ h)
    (hconst : ∀ y x, y < h → x < w → rd B (y * w + x) = c) :
    ∀ m, m ≤ levels →
      ∀ y x, y < h → x < w →
        rd (ip (fun k L => fwdHaarLevel w h false sqbias levels (k + 1) L) m B)
            (y * w + x)
          = if x < w >>> m ∧ y < h >>> m then c else 0 := by
  intro m
  induction m with
  | zero =>
      intro _ y x hy hx
      show rd B (y * w + x) = _
      rw [hconst y x hy hx, if_pos]
      exact ⟨by simpa using hx, by simpa using hy⟩
  | succ m ih =>
      intro hm y x hy hx
      have ihm := ih (by omega)
      have hstep : ip (fun k L => fwdHaarLevel w h false sqbias levels (k + 1) L)
            (m + 1) B
          = fwdHaarLevel w h false sqbias levels (m + 1)
            (ip (fun k L => fwdHaarLevel w h false sqbias levels (k + 1) L) m B)
          := rfl
      have hms : m + 1 - 1 = m := by omega
      have hchyp : ∀ y' x', y' < h >>> m → x' < w >>> m →
          rd (ip (fun k L => fwdHaarLevel w h false sqbias levels (k + 1) L) m B)
            (y' * w + x') = c := by
        intro y' x' hy' hx'
        rw [ihm y' x' (lt_of_lt_of_le hy' (shiftRight_le_self h m))
          (lt_of_lt_of_le hx' (shiftRight_le_self w m))]
        exact if_pos ⟨hx', hy'⟩
      obtain ⟨hlev1, hlev2⟩ := fwdHaarLevel_const w h sqbias levels (m + 1) c
        (ip (fun k L => fwdHaarLevel w h false sqbias levels (k + 1) L) m B)
        hc255 hw (by rw [hms]; exact div_pow_even w levels m hdw (by omega))
        (by rw [hms]; exact div_pow_even h levels m hdh (by omega))
        (by rw [hms]; exact hchyp)
      rw [hms] at hlev1 hlev2
      rw [hstep]
      by_cases hin : x < w >>> m ∧ y < h >>> m
      · show (fwdHaarLevel w h false sqbias levels (m + 1) _) (y * w + x) % 256
            = _
        rw [hlev1 y x hin.2 hin.1]
        rw [shiftRight_succ_div w m, shiftRight_succ_div h m]
        split <;> omega
      · have huntouched := hlev2 (y * w + x) (fun y' x' hy' hx' heq =>
          hin ⟨by
            have := (coord_inj w x x' y y' hx
              (lt_of_lt_of_le hx' (shiftRight_le_self w m)) heq).2
            omega, by
            have := (coord_inj w x x' y y' hx
              (lt_of_lt_of_le hx' (shiftRight_le_self w m)) heq).1
            omega⟩)
        show rd (fwdHaarLevel w h false sqbias levels (m + 1) _) (y * w + x) = _
        rw [rd_ext _ _ _ huntouched, ihm y x hy hx]
        have hw2 : w >>> (m + 1) ≤ w >>> m := by
          rw [← shiftRight_succ_div]
          exact Nat.div_le_self _ _
        have hh2 : h >>> (m + 1) ≤ h >>> m := by
          rw [← shiftRight_succ_div]
          exact Nat.div_le_self _ _
        rw [if_neg hin, if_neg (fun hcon => hin ⟨by omega, by omega⟩)]

/-! ## Read-off of the inverse-Haar passes -/

theorem invHaarPair_fst_lt (ngate gain bB av dv : Nat) :
    (invHaarPair ngate gain bB av dv).1 < 256 := by
  show clampU8 (jsShr ((av : Int) -
    (if (sext dv).natAbs < ngate then 0 else sext dv)) gain + (bB : Int)) < 256
  have := clampU8_le (jsShr ((av : Int) -
    (if (sext dv).natAbs < ngate then 0 else sext dv)) gain + (bB : Int))
  omega

theorem invHaarPair_snd_lt (ngate gain bB av dv : Nat) :
    (invHaarPair ngate gain bB av dv).2 < 256 := by
  show clampU8 (jsShr ((if (sext dv).natAbs < ngate then 0 else sext dv)
    * 2 + ((av : Int) -
      (if (sext dv).natAbs < ngate then 0 else sext dv))) gain + (bB : Int)) < 256
  have := clampU8_le (jsShr ((if (sext dv).natAbs < ngate then 0 else sext dv)
    * 2 + ((av : Int) -
      (if (sext dv).natAbs < ngate then 0 else sext dv))) gain + (bB : Int))
  omega

theorem invHaarColBufP_even (w rows : Nat) (ngate gain bB x : Nat) (B : Buf)
    (hr : rows % 2 = 0) (k : Nat) (hk : k < rows / 2) :
    invHaarColBufP w rows ngate gain bB x B (2 * k) =
      (invHaarPair ngate gain bB (rd B (w * k + x))
        (rd B (w * (rows / 2 + k) + x))).1 := by
  unfold invHaarColBufP
  rw [wr2_hit1 _ _ _ _ _ _ k (by omega)
    (fun k' h1 h2 => by omega) (fun k' h1 h2 => by omega),
    show (rows + 2 * k) / 2 = rows / 2 + k from by omega]

theorem invHaarColBufP_odd (w rows : Nat) (ngate gain bB x : Nat) (B : Buf)
    (hr : rows % 2 = 0) (k : Nat) (hk : k < rows / 2) :
    invHaarColBufP w rows ngate gain bB x B (2 * k + 1) =
      (invHaarPair ngate gain bB (rd B (w * k + x))
        (rd B (w * (rows / 2 + k) + x))).2 := by
  unfold invHaarColBufP
  rw [wr2_hit2 _ _ _ _ _ _ k (by omega)
    (fun k' h1 h2 => by omega) (fun k' h1 h2 => by omega),
    show (rows + 2 * k) / 2 = rows / 2 + k from by omega]

theorem invHaarColP_in (w cols rows : Nat) (ngate gain bB x : Nat) (B : Buf)
    (hr : rows % 2 = 0) (hxw : x < w) (y : Nat) (hy : y < rows) :
    invHaarColP w cols rows ngate gain bB x B (y * w + x) =
      if y % 2 = 0 then
        (invHaarPair ngate gain bB (rd B (w * (y / 2) + x))
          (rd B (w * (rows / 2 + y / 2) + x))).1
      else
        (invHaarPair ngate gain bB (rd B (w * (y / 2) + x))
          (rd B (w * (rows / 2 + y / 2) + x))).2 := by
  unfold invHaarColP
  rw [wr1_hit _ _ rows B y hy (fun y' h1 h2 heq =>
    absurd (coord_inj w x x y' y hxw hxw heq).1 (by omega))]
  by_cases hye : y % 2 = 0
  · rw [if_pos hye,
      show rd (invHaarColBufP w rows ngate gain bB x B) y
          = invHaarColBufP w rows ngate gain bB x B y % 256 from rfl]
    conv_lhs => rw [show y = 2 * (y / 2) from by omega]
    rw [invHaarColBufP_even w rows ngate gain bB x B hr (y / 2) (by omega),
      Nat.mod_eq_of_lt (invHaarPair_fst_lt _ _ _ _ _)]
  · rw [if_neg hye,
      show rd (invHaarColBufP w rows ngate gain bB x B) y
          = invHaarColBufP w rows ngate gain bB x B y % 256 from rfl]
    conv_lhs => rw [show y = 2 * (y / 2) + 1 from by omega]
    rw [invHaarColBufP_odd w rows ngate gain bB x B hr (y / 2) (by omega),
      Nat.mod_eq_of_lt (invHaarPair_snd_lt _ _ _ _ _)]

theorem invHaarColP_out (w cols rows : Nat) (ngate gain bB x : Nat) (B : Buf)
    (j : Nat) (hj : ∀ y, y < rows → j ≠ y * w + x) :
    invHaarColP w cols rows ngate gain bB x B j = B j := by
  unfold invHaarColP
  exact wr1_untouched _ _ rows B j (fun y hy heq => hj y hy heq.symm)

theorem invHaarRowBufP_even (cols : Nat) (ngate gain bB rowBase : Nat) (B : Buf)
    (hc : cols % 2 = 0) (k : Nat) (hk : k < cols / 2) :
    invHaarRowBufP cols ngate gain bB rowBase B (2 * k) =
      (invHaarPair ngate gain bB (rd B (rowBase + k))
        (rd B (rowBase + (cols / 2 + k)))).1 := by
  unfold invHaarRowBufP
  rw [wr2_hit1 _ _ _ _ _ _ k (by omega)
    (fun k' h1 h2 => by omega) (fun k' h1 h2 => by omega),
    show (cols + 2 * k) / 2 = cols / 2 + k from by omega]

theorem invHaarRowBufP_odd (cols : Nat) (ngate gain bB rowBase : Nat) (B : Buf)
    (hc : cols % 2 = 0) (k : Nat) (hk : k < cols / 2) :
    invHaarRowBufP cols ngate gain bB rowBase B (2 * k + 1) =
      (invHaarPair ngate gain bB (rd B (rowBase + k))
        (rd B (rowBase + (cols / 2 + k)))).2 := by
  unfold invHaarRowBufP
  rw [wr2_hit2 _ _ _ _ _ _ k (by omega)
    (fun k' h1 h2 => by omega) (fun k' h1 h2 => by omega),
    show (cols + 2 * k) / 2 = cols / 2 + k from by omega]

theorem invHaarRowP_in (w cols : Nat) (ngate gain bB rowBase : Nat) (B : Buf)
    (hc : cols % 2 = 0) (x : Nat) (hx : x < cols) :
    invHaarRowP w cols ngate gain bB rowBase B (rowBase + x) =
      if x % 2 = 0 then
        (invHaarPair ngate gain bB (rd B (rowBase + x / 2))
          (rd B (rowBase + (cols / 2 + x / 2)))).1
      else
        (invHaarPair ngate gain bB (rd B (rowBase + x / 2))
          (rd B (rowBase + (cols / 2 + x / 2)))).2 := by
  unfold invHaarRowP
  rw [wr1_hit _ _ cols B x hx (fun k' h1 h2 => by omega)]
  by_cases hxe : x % 2 = 0
  · rw [if_pos hxe,
      show rd (invHaarRowBufP cols ngate gain bB rowBase B) x
          = invHaarRowBufP cols ngate gain bB rowBase B x % 256 from rfl]
    conv_lhs => rw [show x = 2 * (x / 2) from by omega]
    rw [invHaarRowBufP_even cols ngate gain bB rowBase B hc (x / 2) (by omega),
      Nat.mod_eq_of_lt (invHaarPair_fst_lt _ _ _ _ _)]
  · rw [if_neg hxe,
      show rd (invHaarRowBufP cols ngate gain bB rowBase B) x
          = invHaarRowBufP cols ngate gain bB rowBase B x % 256 from rfl]
    conv_lhs => rw [show x = 2 * (x / 2) + 1 from by omega]
    rw [invHaarRowBufP_odd cols ngate gain bB rowBase B hc (x / 2) (by omega),
      Nat.mod_eq_of_lt (invHaarPair_snd_lt _ _ _ _ _)]

theorem invHaarRowP_out (w cols : Nat) (ngate gain bB rowBase : Nat) (B : Buf)
    (j : Nat) (hj : ¬(rowBase ≤ j ∧ j < rowBase + cols)) :
    invHaarRowP w cols ngate gain bB rowBase B j = B j := by
  unfold invHaarRowP
  exact wr1_untouched _ _ cols B j (fun k hk => by omega)

theorem invHaarColsP_eq (w cols rows : Nat) (ngate gain bB : Nat) (B : Buf)
    (hr : rows % 2 = 0) (hcw : cols ≤ w) :
    ∀ m, m ≤ cols →
      (∀ y x, y < rows → x < m →
        ip (fun x' L => invHaarColP w cols rows ngate gain bB x' L) m B
            (y * w + x) =
          if y % 2 = 0 then
            (invHaarPair ngate gain bB (rd B (w * (y / 2) + x))
              (rd B (w * (rows / 2 + y / 2) + x))).1
          else
            (invHaarPair ngate gain bB (rd B (w * (y / 2) + x))
              (rd B (w * (rows / 2 + y / 2) + x))).2) ∧
      (∀ j, (∀ y x, y < rows → x < m → j ≠ y * w + x) →
        ip (fun x' L => invHaarColP w cols rows ngate gain bB x' L) m B j
          = B j) := by
  intro m
  induction m with
  | zero => exact fun _ => ⟨fun y x hy hx => by omega, fun j hj => rfl⟩
  | succ m ih =>
      intro hm
      obtain ⟨ih1, ih2⟩ := ih (by omega)
      have hmw : m < w := by omega
      have hstep : ip (fun x' L => invHaarColP w cols rows ngate gain bB x' L)
            (m + 1) B
          = invHaarColP w cols rows ngate gain bB m
            (ip (fun x' L => invHaarColP w cols rows ngate gain bB x' L) m B)
          := rfl
      have hread : ∀ yr, yr < rows →
          rd (ip (fun x' L => invHaarColP w cols rows ngate gain bB x' L) m B)
              (w * yr + m)
            = rd B (w * yr + m) := by
        intro yr hyr
        apply rd_ext
        apply ih2
        intro y' x' hy' hx' heq
        rw [mul_comm w yr] at heq
        exact absurd (coord_inj w m x' yr y' hmw (by omega) heq).2 (by omega)
      constructor
      · intro y x hy hx
        rw [hstep]
        by_cases hxm : x = m
        · subst hxm
          rw [invHaarColP_in w cols rows ngate gain bB x _ hr (by omega) y hy,
            hread (y / 2) (by omega), hread (rows / 2 + y / 2) (by omega)]
        · rw [invHaarColP_out w cols rows ngate gain bB m _ (y * w + x)
            (fun y' hy' heq =>
              absurd (coord_inj w x m y y' (by omega) hmw heq).2 hxm)]
          exact ih1 y x hy (by omega)
      · intro j hj
        rw [hstep,
          invHaarColP_out w cols rows ngate gain bB m _ j
            (fun y' hy' => hj y' m hy' (by omega))]
        exact ih2 j (fun y x hy hx => hj y x hy (by omega))

theorem invHaarRowsP_eq (w cols : Nat) (ngate gain bB : Nat) (B : Buf)
    (hc : cols % 2 = 0) (hcw : cols ≤ w) (hw : 0 < w) :
    ∀ rows,
      (∀ y x, y < rows → x < cols →
        invHaarRowsP w cols rows ngate gain bB B (y * w + x) =
          if x % 2 = 0 then
            (invHaarPair ngate gain bB (rd B (y * w + x / 2))
              (rd B (y * w + (cols / 2 + x / 2)))).1
          else
            (invHaarPair ngate gain bB (rd B (y * w + x / 2))
              (rd B (y * w + (cols / 2 + x / 2)))).2) ∧
      (∀ j, (∀ y x, y < rows → x < cols → j ≠ y * w + x) →
        invHaarRowsP w cols rows ngate gain bB B j = B j) := by
  intro rows
  induction rows with
  | zero => exact ⟨fun y x hy hx => by omega, fun j hj => rfl⟩
  | succ m ih =>
      obtain ⟨ih1, ih2⟩ := ih
      have hstep : invHaarRowsP w cols (m + 1) ngate gain bB B
          = invHaarRowP w cols ngate gain bB (m * w)
            (invHaarRowsP w cols m ngate gain bB B) := rfl
      have hread : ∀ i, m * w ≤ i → i < m * w + cols →
          rd (invHaarRowsP w cols m ngate gain bB B) i = rd B i := by
        intro i hi1 hi2
        apply rd_ext
        apply ih2
        intro y' x' hy' hx' heq
        have hlt := row_lt_row w y' m x' 0 (lt_of_lt_of_le hx' hcw) hy'
        omega
      constructor
      · intro y x hy hx
        rw [hstep]
        by_cases hym : y = m
        · subst hym
          rw [invHaarRowP_in w cols ngate gain bB (y * w) _ hc x hx,
            hread (y * w + x / 2) (by omega) (by omega),
            hread (y * w + (cols / 2 + x / 2)) (by omega) (by omega)]
        · have hy' : y < m := by omega
          rw [invHaarRowP_out]
          · exact ih1 y x hy' hx
          · intro hcontra
            have hlt := row_lt_row w y m x 0 (lt_of_lt_of_le hx hcw) hy'
            omega
      · intro j hj
        rw [hstep, invHaarRowP_out]
        · exact ih2 j (fun y x hy hx => hj y x (by omega) hx)
        · intro hcontra
          exact hj m (j - m * w) (by omega) (by omega) (by omega)

/-! ## Inverse Haar with null parameters on the constant pattern -/

theorem invHaarPair_zeros (v : Nat) (hv : v ≤ 255) :
    invHaarPair 0 0 0 v 0 = (v, v) := by
  have hs : sext 0 = 0 := by decide
  show (clampU8 (jsShr ((v : Int) -
      (if (sext 0).natAbs < 0 then 0 else sext 0)) 0 + ((0 : Nat) : Int)),
    clampU8 (jsShr ((if (sext 0).natAbs < 0 then 0 else sext 0) * 2 +
      ((v : Int) - (if (sext 0).natAbs < 0 then 0 else sext 0))) 0
        + ((0 : Nat) : Int))) = (v, v)
  rw [hs]
  norm_num
  unfold clampU8 clamp255 jsShr
  norm_num
  split
  · omega
  · split <;> omega

theorem invHaarLevelP_const (w h : Nat) (level c : Nat) (B : Buf)
    (hc255 : c ≤ 255) (hw : 0 < w)
    (hc2 : (w >>> (level - 1)) % 2 = 0) (hr2 : (h >>> (level - 1)) % 2 = 0)
    (hpat : ∀ y x, y < h >>> (level - 1) → x < w >>> (level - 1) →
      rd B (y * w + x) =
        if x < (w >>> (level - 1)) / 2 ∧ y < (h >>> (level - 1)) / 2 then c
        else 0) :
    (∀ y x, y < h >>> (level - 1) → x < w >>> (level - 1) →
      invHaarLevelP w h 0 0 0 level B (y * w + x) = c) ∧
    (∀ j, (∀ y x, y < h >>> (level - 1) → x < w >>> (level - 1) →
        j ≠ y * w + x) →
      invHaarLevelP w h 0 0 0 level B j = B j) := by
  have hcw : w >>> (level - 1) ≤ w := shiftRight_le_self _ _
  have hbody : invHaarLevelP w h 0 0 0 level B
      = invHaarRowsP w (w >>> (level - 1)) (h >>> (level - 1)) 0 0 0
        (ip (fun x' L => invHaarColP w (w >>> (level - 1)) (h >>> (level - 1))
          0 0 0 x' L) (w >>> (level - 1)) B) := rfl
  obtain ⟨hcA, hcB⟩ := invHaarColsP_eq w (w >>> (level - 1))
    (h >>> (level - 1)) 0 0 0 B hr2 hcw (w >>> (level - 1)) (le_refl _)
  have hB1 : ∀ y x, y < h >>> (level - 1) → x < w >>> (level - 1) →
      ip (fun x' L => invHaarColP w (w >>> (level - 1)) (h >>> (level - 1))
          0 0 0 x' L) (w >>> (level - 1)) B (y * w + x)
        = if x < (w >>> (level - 1)) / 2 then c else 0 := by
    intro y x hy hx
    rw [hcA y x hy hx]
    have havg : rd B (w * (y / 2) + x)
        = if x < (w >>> (level - 1)) / 2 then c else 0 := by
      rw [mul_comm w (y / 2), hpat (y / 2) x (by omega) hx]
      by_cases hxh : x < (w >>> (level - 1)) / 2
      · rw [if_pos hxh, if_pos ⟨hxh, by omega⟩]
      · rw [if_neg hxh, if_neg (fun hcon => hxh hcon.1)]
    have hdiff : rd B (w * ((h >>> (level - 1)) / 2 + y / 2) + x) = 0 := by
      rw [mul_comm w ((h >>> (level - 1)) / 2 + y / 2),
        hpat ((h >>> (level - 1)) / 2 + y / 2) x (by omega) hx,
        if_neg (fun hcon => by omega)]
    rw [havg, hdiff]
    by_cases hxh : x < (w >>> (level - 1)) / 2
    · rw [if_pos hxh, invHaarPair_zeros c hc255]
      split <;> rfl
    · rw [if_neg hxh, invHaarPair_zeros 0 (by omega)]
      split <;> rfl
  have hB1rd : ∀ y x, y < h >>> (level - 1) → x < w >>> (level - 1) →
      rd (ip (fun x' L => invHaarColP w (w >>> (level - 1))
          (h >>> (level - 1)) 0 0 0 x' L) (w >>> (level - 1)) B) (y * w + x)
        = if x < (w >>> (level - 1)) / 2 then c else 0 := by
    intro y x hy hx
    show ip _ (w >>> (level - 1)) B (y * w + x) % 256 = _
    rw [hB1 y x hy hx]
    split <;> omega
  obtain ⟨hrA, hrB⟩ := invHaarRowsP_eq w (w >>> (level - 1)) 0 0 0
    (ip (fun x' L => invHaarColP w (w >>> (level - 1)) (h >>> (level - 1))
      0 0 0 x' L) (w >>> (level - 1)) B) hc2 hcw hw (h >>> (level - 1))
  constructor
  · intro y x hy hx
    rw [hbody]
    show invHaarRowsP w (w >>> (level - 1)) (h >>> (level - 1)) 0 0
        (biasBoost 0) _ (y * w + x) = c
    rw [show biasBoost 0 = 0 from rfl, hrA y x hy hx,
      hB1rd y (x / 2) hy (by omega), hB1rd y ((w >>> (level - 1)) / 2 + x / 2)
        hy (by omega),
      if_pos (show x / 2 < (w >>> (level - 1)) / 2 from by omega),
      if_neg (show ¬((w >>> (level - 1)) / 2 + x / 2 <
        (w >>> (level - 1)) / 2) from by omega),
      invHaarPair_zeros c hc255]
    split <;> rfl
  · intro j hj
    rw [hbody]
    show invHaarRowsP w (w >>> (level - 1)) (h >>> (level - 1)) 0 0
        (biasBoost 0) _ j = B j
    rw [show biasBoost 0 = 0 from rfl, hrB j hj]
    exact hcB j hj

theorem waveletInvHaarP_const_inv (w h levels c : Nat) (B : Buf)
    (hc255 : c ≤ 255) (hw : 0 < w)
    (hdw : 2 ^ levels ∣ w) (hdh : 2 ^ levels ∣ h)
    (hpat0 : ∀ y x, y < h → x < w → rd B (y * w + x)
      = if x < w >>> levels ∧ y < h >>> levels then c else 0) :
    ∀ m, m ≤ levels →
      ∀ y x, y < h → x < w →
        rd (ip (fun k L => invHaarLevelP w h 0 0 0 (levels - k) L) m B)
            (y * w + x)
          = if x < w >>> (levels - m) ∧ y < h >>> (levels - m) then c
            else 0 := by
  intro m
  induction m with
  | zero =>
      intro _ y x hy hx
      show rd B (y * w + x) = _
      rw [hpat0 y x hy hx, Nat.sub_zero]
  | succ m ih =>
      intro hm y x hy hx
      have ihm := ih (by omega)
      have hstep : ip (fun k L => invHaarLevelP w h 0 0 0 (levels - k) L)
            (m + 1) B
          = invHaarLevelP w h 0 0 0 (levels - m)
            (ip (fun k L => invHaarLevelP w h 0 0 0 (levels - k) L) m B)
          := rfl
      have hms : levels - m - 1 = levels - (m + 1) := by omega
      have hdiv2 : (w >>> (levels - (m + 1))) / 2 = w >>> (levels - m) := by
        rw [shiftRight_succ_div w (levels - (m + 1)),
          show levels - (m + 1) + 1 = levels - m from by omega]
      have hdiv2h : (h >>> (levels - (m + 1))) / 2 = h >>> (levels - m) := by
        rw [shiftRight_succ_div h (levels - (m + 1)),
          show levels - (m + 1) + 1 = levels - m from by omega]
      have hmlt : levels - (m + 1) < levels := by omega
      have hc2' : (w >>> (levels - m - 1)) % 2 = 0 := by
        rw [hms]
        exact div_pow_even w levels (levels - (m + 1)) hdw hmlt
      have hr2' : (h >>> (levels - m - 1)) % 2 = 0 := by
        rw [hms]
        exact div_pow_even h levels (levels - (m + 1)) hdh hmlt
      have hpat' : ∀ y' x', y' < h >>> (levels - m - 1) →
          x' < w >>> (levels - m - 1) →
          rd (ip (fun k L => invHaarLevelP w h 0 0 0 (levels - k) L) m B)
              (y' * w + x')
            = if x' < (w >>> (levels - m - 1)) / 2 ∧
                y' < (h >>> (levels - m - 1)) / 2 then c else 0 := by
        rw [hms]
        intro y' x' hy' hx'
        rw [ihm y' x'
          (lt_of_lt_of_le hy' (shiftRight_le_self h _))
          (lt_of_lt_of_le hx' (shiftRight_le_self w _)),
          hdiv2, hdiv2h]
      obtain ⟨hlev1, hlev2⟩ := invHaarLevelP_const w h (levels - m) c
        (ip (fun k L => invHaarLevelP w h 0 0 0 (levels - k) L) m B)
        hc255 hw hc2' hr2' hpat'
      rw [hms] at hlev1 hlev2
      rw [hstep]
      by_cases hin : x < w >>> (levels - (m + 1)) ∧ y < h >>> (levels - (m + 1))
      · show invHaarLevelP w h 0 0 0 (levels - m) _ (y * w + x) % 256 = _
        rw [hlev1 y x hin.2 hin.1, if_pos hin]
        omega
      · have huntouched := hlev2 (y * w + x) (fun y' x' hy' hx' heq =>
          hin ⟨by
            have := (coord_inj w x x' y y' hx
              (lt_of_lt_of_le hx' (shiftRight_le_self w _)) heq).2
            omega, by
            have := (coord_inj w x x' y y' hx
              (lt_of_lt_of_le hx' (shiftRight_le_self w _)) heq).1
            omega⟩)
        show rd (invHaarLevelP w h 0 0 0 (levels - m) _) (y * w + x) = _
        rw [rd_ext _ _ _ huntouched, ihm y x hy hx]
        have hw2 : w >>> (levels - m) ≤ w >>> (levels - (m + 1)) := by
          rw [← hdiv2]; exact Nat.div_le_self _ _
        have hh2 : h >>> (levels - m) ≤ h >>> (levels - (m + 1)) := by
          rw [← hdiv2h]; exact Nat.div_le_self _ _
        rw [if_neg (fun hcon => hin ⟨by omega, by omega⟩), if_neg hin]

/-! ## C1 — Haar round-trip -/

/-- C1 counterexample: the 2×2 buffer `[0,1,0,1]` (dimensions divisible by
`2^1`) does not survive forward Haar followed by inverse Haar with noise
gate 0, gain 0, bias 0 at every level: sample 1 comes back as 0, because
the forward transform stores the pair difference at half scale, dropping
its least-significant bit. -/
theorem haar_roundtrip_not_exact :
    (2 : Nat) % 2 ^ 1 = 0 ∧
      waveletInvHaarP 2 2 1 (fun _ => 0) (fun _ => 0) (fun _ => 0)
          (waveletFwdHaar 2 2 1 false 0 (fun i => i % 2)) 1
        ≠ (fun i => i % 2 : Buf) 1 := by
  constructor
  · decide
  · decide

/-- C1 (amended): for every **constant-valued** intensity buffer whose
width and height are divisible by `2^levels`, running the forward Haar
transform (squash disabled) followed by the inverse Haar transform with
noise gate 0, gain 0 and bias 0 at every level reproduces the original
buffer exactly, sample for sample. -/
theorem haar_roundtrip_const (w h levels c : Nat) (B : Buf)
    (hc255 : c ≤ 255) (hdw : 2 ^ levels ∣ w) (hdh : 2 ^ levels ∣ h)
    (hB : ∀ i, i < w * h → B i = c) :
    ∀ i, i < w * h →
      waveletInvHaarP w h levels (fun _ => 0) (fun _ => 0) (fun _ => 0)
        (waveletFwdHaar w h levels false 0 B) i = B i := by
  intro i hi
  have hw : 0 < w := by
    rcases Nat.eq_zero_or_pos w with h0 | h0
    · subst h0; omega
    · exact h0
  have hx : i % w < w := Nat.mod_lt _ hw
  have hy : i / w < h := by
    rw [Nat.div_lt_iff_lt_mul hw, mul_comm h w]
    exact hi
  have hieq : (i / w) * w + i % w = i := by
    rw [mul_comm]
    exact Nat.div_add_mod i w
  have hconst : ∀ y' x', y' < h → x' < w → rd B (y' * w + x') = c := by
    intro y' x' hy' hx'
    have hlt : y' * w + x' < w * h := by
      have := row_lt_row w y' h x' 0 hx' hy'
      rw [mul_comm w h]
      omega
    show B (y' * w + x') % 256 = c
    rw [hB _ hlt]
    omega
  rcases Nat.eq_zero_or_pos levels with hl0 | hlpos
  · subst hl0; rfl
  obtain ⟨L, rfl⟩ : ∃ L, levels = L + 1 := ⟨levels - 1, by omega⟩
  have hfwd := waveletFwdHaar_const_inv w h (L + 1) c B 0 hc255 hw hdw hdh
    hconst (L + 1) (le_refl _)
  have hinv := waveletInvHaarP_const_inv w h (L + 1) c
    (waveletFwdHaar w h (L + 1) false 0 B) hc255 hw hdw hdh hfwd L (by omega)
  have hL1 : L + 1 - L = 1 := by omega
  rw [hL1] at hinv
  have hc2 : (w >>> (1 - 1)) % 2 = 0 :=
    div_pow_even w (L + 1) 0 hdw (by omega)
  have hr2 : (h >>> (1 - 1)) % 2 = 0 :=
    div_pow_even h (L + 1) 0 hdh (by omega)
  have hpat : ∀ y x, y < h >>> (1 - 1) → x < w >>> (1 - 1) →
      rd (ip (fun k L' => invHaarLevelP w h 0 0 0 (L + 1 - k) L') L
          (waveletFwdHaar w h (L + 1) false 0 B)) (y * w + x)
        = if x < (w >>> (1 - 1)) / 2 ∧ y < (h >>> (1 - 1)) / 2 then c
          else 0 := by
    intro y x hy' hx'
    rw [hinv y x hy' hx', ← shiftRight_succ_div w 0, ← shiftRight_succ_div h 0]
  obtain ⟨hfin, _⟩ := invHaarLevelP_const w h 1 c
    (ip (fun k L' => invHaarLevelP w h 0 0 0 (L + 1 - k) L') L
      (waveletFwdHaar w h (L + 1) false 0 B)) hc255 hw hc2 hr2 hpat
  have hgoal := hfin (i / w) (i % w) hy hx
  rw [hieq] at hgoal
  show invHaarLevelP w h 0 0 0 (L + 1 - L)
      (ip (fun k L' => invHaarLevelP w h 0 0 0 (L + 1 - k) L') L
        (waveletFwdHaar w h (L + 1) false 0 B)) i = B i
  rw [hL1, hgoal, hB i hi]

/-- C1 witness: a 2×2 constant buffer of value 100 at one level survives
the round trip (checks the theorem's hypotheses and conclusion at a
concrete instance). -/
theorem haar_roundtrip_const_witness :
    ((100 : Nat) ≤ 255 ∧ (2 : Nat) ^ 1 ∣ 2 ∧
      (∀ i, i < 2 * 2 → (fun _ => 100 : Buf) i = 100) ∧ (0 : Nat) < 2 * 2) ∧
      waveletInvHaarP 2 2 1 (fun _ => 0) (fun _ => 0) (fun _ => 0)
        (waveletFwdHaar 2 2 1 false 0 (fun _ => 100)) 0
        = (fun _ => 100 : Buf) 0 :=
  ⟨by decide, haar_roundtrip_const 2 2 1 100 (fun _ => 100) (by decide)
    (by decide) (by decide) (by decide) 0 (by decide)⟩

/-! ## C3 — where squash acts -/

theorem fwdHaarColBuf_sq_irrel (w cols rows : Nat) (sq : Bool)
    (level levels sqbias x : Nat) (B : Buf) (h : level ≠ levels) :
    fwdHaarColBuf w cols rows sq level levels sqbias x B
      = fwdHaarColBuf w cols rows false level levels sqbias x B := by
  have hv : (fun k => if sq ∧ level = levels ∧ x < cols >>> 1 then sqbias % 256
      else haarAvgByte (rd B (2 * k * w + x)) (rd B ((2 * k + 1) * w + x)))
      = (fun k => if (false : Bool) ∧ level = levels ∧ x < cols >>> 1
          then sqbias % 256
          else haarAvgByte (rd B (2 * k * w + x)) (rd B ((2 * k + 1) * w + x)))
      := by
    funext k
    rw [if_neg (fun hcon => h hcon.2.1), if_neg (fun hcon => h hcon.2.1)]
  unfold fwdHaarColBuf
  rw [hv]

theorem fwdHaarCol_sq_irrel (w cols rows : Nat) (sq : Bool)
    (level levels sqbias x : Nat) (B : Buf) (h : level ≠ levels) :
    fwdHaarCol w cols rows sq level levels sqbias x B
      = fwdHaarCol w cols rows false level levels sqbias x B := by
  unfold fwdHaarCol
  rw [fwdHaarColBuf_sq_irrel w cols rows sq level levels sqbias x B h]

theorem fwdHaarLevel_sq_irrel (w h : Nat) (sq : Bool)
    (sqbias levels level : Nat) (B : Buf) (hne : level ≠ levels) :
    fwdHaarLevel w h sq sqbias levels level B
      = fwdHaarLevel w h false sqbias levels level B := by
  unfold fwdHaarLevel fwdHaarCols
  exact ip_congr _ _ _ _ (fun x hx L =>
    fwdHaarCol_sq_irrel w _ _ sq level levels sqbias x L hne)

/-- C3 counterexample: with squash enabled the **forward** Haar transform
already differs from the squash-disabled forward transform (on a constant
buffer of 100 with squash bias 7, output sample 0 is 7 instead of 100), so
the substitution is not performed "only during the inverse transform pass"
— the inverse transform of the current revision takes no squash input at
all. -/
theorem squash_not_inverse_only :
    waveletFwdHaar 2 2 1 true 7 (fun _ => 100) 0
      ≠ waveletFwdHaar 2 2 1 false 7 (fun _ => 100) 0 := by
  decide

/-- C3 (amended): squash substitutes the configured bias during the
**forward** transform, at the final level processed (`level = levels`, the
deepest), inside the vertical-average de-interleave step, and only for the
half of the average sub-column nearer the origin — so exactly the samples
at `x < w >> levels`, `y < h >> levels` become `sqbias`, and every other
sample equals the squash-disabled forward transform. -/
theorem squash_forward_placement (w h levels sqbias : Nat) (B : Buf)
    (hl : 0 < levels) (hw : 0 < w)
    (hdw : 2 ^ levels ∣ w) (hdh : 2 ^ levels ∣ h) (hsb : sqbias ≤ 255) :
    (∀ y x, y < h >>> levels → x < w >>> levels →
      waveletFwdHaar w h levels true sqbias B (y * w + x) = sqbias) ∧
    (∀ j, (∀ y x, y < h >>> levels → x < w >>> levels → j ≠ y * w + x) →
      waveletFwdHaar w h levels true sqbias B j
        = waveletFwdHaar w h levels false sqbias B j) := by
  obtain ⟨L, rfl⟩ : ∃ L, levels = L + 1 := ⟨levels - 1, by omega⟩
  have hpre : ip (fun k B' => fwdHaarLevel w h true sqbias (L + 1) (k + 1) B') L B
      = ip (fun k B' => fwdHaarLevel w h false sqbias (L + 1) (k + 1) B') L B :=
    ip_congr _ _ L B (fun k hk B' =>
      fwdHaarLevel_sq_irrel w h true sqbias (L + 1) (k + 1) B' (by omega))
  have hshowT : waveletFwdHaar w h (L + 1) true sqbias B
      = fwdHaarLevel w h true sqbias (L + 1) (L + 1)
        (ip (fun k B' => fwdHaarLevel w h false sqbias (L + 1) (k + 1) B') L B)
      := by
    show fwdHaarLevel w h true sqbias (L + 1) (L + 1)
        (ip (fun k B' => fwdHaarLevel w h true sqbias (L + 1) (k + 1) B') L B)
      = _
    rw [hpre]
  have hshowF : waveletFwdHaar w h (L + 1) false sqbias B
      = fwdHaarLevel w h false sqbias (L + 1) (L + 1)
        (ip (fun k B' => fwdHaarLevel w h false sqbias (L + 1) (k + 1) B') L B)
      := rfl
  have hcw : w >>> (L + 1 - 1) ≤ w := shiftRight_le_self _ _
  have hr2 : (h >>> (L + 1 - 1)) % 2 = 0 :=
    div_pow_even h (L + 1) L hdh (by omega)
  obtain ⟨hT1, hT2⟩ := fwdHaarCols_eq w (w >>> (L + 1 - 1)) (h >>> (L + 1 - 1))
    true (L + 1) (L + 1) sqbias
    (fwdHaarRows w (w >>> (L + 1 - 1)) (h >>> (L + 1 - 1))
      (ip (fun k B' => fwdHaarLevel w h false sqbias (L + 1) (k + 1) B') L B))
    hr2 hcw (w >>> (L + 1 - 1)) (le_refl _)
  obtain ⟨hF1, hF2⟩ := fwdHaarCols_eq w (w >>> (L + 1 - 1)) (h >>> (L + 1 - 1))
    false (L + 1) (L + 1) sqbias
    (fwdHaarRows w (w >>> (L + 1 - 1)) (h >>> (L + 1 - 1))
      (ip (fun k B' => fwdHaarLevel w h false sqbias (L + 1) (k + 1) B') L B))
    hr2 hcw (w >>> (L + 1 - 1)) (le_refl _)
  have hLL : L + 1 - 1 = L := by omega
  have hhalfw : (w >>> L) / 2 = w >>> (L + 1) := shiftRight_succ_div w L
  have hhalfh : (h >>> L) / 2 = h >>> (L + 1) := shiftRight_succ_div h L
  have hcols1 : (w >>> L) >>> 1 = (w >>> L) / 2 := shiftRight_one_div _
  rw [hLL] at hT1 hT2 hF1 hF2
  constructor
  · intro y x hy hx
    rw [hshowT]
    show ip _ (w >>> (L + 1 - 1)) _ (y * w + x) = _
    rw [hLL]
    have hyb : y < (h >>> L) / 2 := by rw [hhalfh]; exact hy
    have hxb : x < (w >>> L) / 2 := by rw [hhalfw]; exact hx
    have hyL : y < h >>> L := lt_of_lt_of_le hyb (Nat.div_le_self _ _)
    have hxL : x < w >>> L := lt_of_lt_of_le hxb (Nat.div_le_self _ _)
    rw [hT1 y x hyL hxL, if_pos hyb,
      if_pos (show (true : Bool) ∧ L + 1 = L + 1 ∧ x < (w >>> L) >>> 1 from
        ⟨rfl, rfl, by rw [hcols1]; exact hxb⟩)]
    omega
  · intro j hj
    rw [hshowT, hshowF]
    show ip _ (w >>> (L + 1 - 1)) _ j
        = ip _ (w >>> (L + 1 - 1)) _ j
    rw [hLL]
    by_cases hin : j % w < w >>> L ∧ j / w < h >>> L
    · have hjeq : (j / w) * w + j % w = j := by
        rw [mul_comm]
        exact Nat.div_add_mod j w
      rw [← hjeq, hT1 (j / w) (j % w) hin.2 hin.1,
        hF1 (j / w) (j % w) hin.2 hin.1]
      by_cases hyh : j / w < (h >>> L) / 2
      · have hxn : ¬(j % w < (w >>> L) / 2) := by
          intro hxh
          exact hj (j / w) (j % w) (by rw [← hhalfh]; exact hyh)
            (by rw [← hhalfw]; exact hxh) (by rw [hjeq])
        rw [if_pos hyh, if_pos hyh,
          if_neg (show ¬((true : Bool) ∧ L + 1 = L + 1 ∧
            j % w < (w >>> L) >>> 1) from by
              rw [hcols1]
              exact fun hcon => hxn hcon.2.2),
          if_neg (show ¬((false : Bool) ∧ L + 1 = L + 1 ∧
            j % w < (w >>> L) >>> 1) from fun hcon =>
              Bool.false_ne_true hcon.1)]
      · rw [if_neg hyh, if_neg hyh]
    · have hjout : ∀ y x, y < h >>> L → x < w >>> L → j ≠ y * w + x := by
        intro y x hy hx heq
        have hc := coord_mod_div w y x (lt_of_lt_of_le hx
          (shiftRight_le_self w L))
        rw [heq, hc.1, hc.2] at hin
        exact hin ⟨hx, hy⟩
      rw [hT2 j hjout, hF2 j hjout]

/-- C3 witness: at a concrete 2×2 instance, the squash block sample is
forced to the configured bias. -/
theorem squash_forward_placement_witness :
    ((0 : Nat) < 1 ∧ (0 : Nat) < 2 ∧ (2 : Nat) ^ 1 ∣ 2 ∧ (7 : Nat) ≤ 255) ∧
      waveletFwdHaar 2 2 1 true 7 (fun _ => 100) (0 * 2 + 0) = 7 :=
  ⟨by decide, (squash_forward_placement 2 2 1 7 (fun _ => 100) (by decide)
    (by decide) (by decide) (by decide) (by decide)).1 0 0 (by decide)
    (by decide)⟩

/-! ## Forward linear transform (`waveletFwdLinear`, current revision)

Per level: horizontal pass over every row — an in-place predict loop
replacing each odd sample with the clamped half-scale residual
`(odd - ((even1+even2)>>1)) >> 1`, then a de-interleave into `rowBuf` and a
copy back — followed by the vertical counterpart, whose de-interleave
carries the squash substitution on the average cell. -/

def linPredictRow (cols rowBase : Nat) : Nat → Buf → Buf :=
  ip (fun k L =>
    let even1 := rowBase + 2 * k
    let odd := rowBase + 2 * k + 1
    let even2 := rowBase + 2 * k + (if 2 * k + 2 < cols then 2 else 0)
    let prediction := (rd L even1 + rd L even2) >>> 1
    let d0 : Int := jsShr ((rd L odd : Int) - (prediction : Int)) 1
    let d1 : Int := if d0 < -128 then -128 else if d0 > 127 then 127 else d0
    upd L odd (toU8 d1))

def linDeintRowBuf (cols rowBase : Nat) (B : Buf) : Buf :=
  wr2 (fun k => k) (fun k => (cols + 2 * k) / 2)
    (fun k => rd B (rowBase + 2 * k))
    (fun k => rd B (rowBase + 2 * k + 1))
    ((cols + 1) / 2) zeroBuf

def linRowH (w cols rowBase : Nat) (B : Buf) : Buf :=
  wr1 (fun x => rowBase + x)
    (fun x => rd (linDeintRowBuf cols rowBase
      (linPredictRow cols rowBase ((cols + 1) / 2) B)) x) cols
    (linPredictRow cols rowBase ((cols + 1) / 2) B)

def linRowsH (w cols rows : Nat) (B : Buf) : Buf :=
  ip (fun y L => linRowH w cols (y * w) L) rows B

def linPredictCol (w rows x : Nat) : Nat → Buf → Buf :=
  ip (fun k L =>
    let even1 := 2 * k * w + x
    let odd := even1 + w
    let even2 := if 2 * k + 2 < rows then odd + w else even1
    let prediction := (rd L even1 + rd L even2) >>> 1
    let d0 : Int := jsShr ((rd L odd : Int) - (prediction : Int)) 1
    let d1 : Int := if d0 < -128 then -128 else if d0 > 127 then 127 else d0
    upd L odd (toU8 d1))

def linDeintColBuf (w cols rows : Nat) (sq : Bool) (level levels sqbias x : Nat)
    (B : Buf) : Buf :=
  wr2 (fun k => k) (fun k => (rows + 2 * k) / 2)
    (fun k =>
      if sq ∧ level = levels ∧ x < cols >>> 1 then sqbias % 256
      else rd B (2 * k * w + x))
    (fun k => rd B ((2 * k + 1) * w + x))
    ((rows + 1) / 2) zeroBuf

def linColV (w cols rows : Nat) (sq : Bool) (level levels sqbias x : Nat)
    (B : Buf) : Buf :=
  wr1 (fun y => y * w + x)
    (fun y => rd (linDeintColBuf w cols rows sq level levels sqbias x
      (linPredictCol w rows x ((rows + 1) / 2) B)) y) rows
    (linPredictCol w rows x ((rows + 1) / 2) B)

def linColsV (w cols rows : Nat) (sq : Bool) (level levels sqbias : Nat)
    (B : Buf) : Buf :=
  ip (fun x L => linColV w cols rows sq level levels sqbias x L) cols B

def fwdLinearLevel (w h : Nat) (sq : Bool) (sqbias levels level : Nat)
    (B : Buf) : Buf :=
  linColsV w (w >>> (level - 1)) (h >>> (level - 1)) sq level levels sqbias
    (linRowsH w (w >>> (level - 1)) (h >>> (level - 1)) B)

def waveletFwdLinear (w h levels : Nat) (sq : Bool) (sqbias : Nat)
    (B : Buf) : Buf :=
  ip (fun k L => fwdLinearLevel w h sq sqbias levels (k + 1) L) levels B

/-! ## Inverse linear transform (`waveletInvLinear`, current revision)

Per level: every column — copy the column into `colBuf`, re-interleave the
average/difference halves back, then restore the odd samples in place with
`clamp(sign_extend(diff)*2 + prediction)` — then every row likewise. -/

def invLinColBufCopy (w rows x : Nat) (B : Buf) : Buf :=
  wr1 (fun y => y) (fun y => rd B (y * w + x)) rows zeroBuf

def invLinRestoreCol (w rows x : Nat) : Nat → Buf → Buf :=
  ip (fun k L =>
    let even1 := 2 * k * w + x
    let odd := even1 + w
    let even2 := if 2 * k + 2 < rows then odd + w else even1
    let prediction := (rd L even1 + rd L even2) >>> 1
    upd L odd (clampU8 (sext (rd L odd) * 2 + (prediction : Int))))

def invLinCol (w rows x : Nat) (B : Buf) : Buf :=
  invLinRestoreCol w rows x ((rows + 1) / 2)
    (wr2 (fun k => 2 * k * w + x) (fun k => (2 * k + 1) * w + x)
      (fun k => rd (invLinColBufCopy w rows x B) k)
      (fun k => rd (invLinColBufCopy w rows x B) ((rows + 2 * k) / 2))
      ((rows + 1) / 2) B)

def invLinCols (w cols rows : Nat) (B : Buf) : Buf :=
  ip (fun x L => invLinCol w rows x L) cols B

def invLinRowBufCopy (cols rowBase : Nat) (B : Buf) : Buf :=
  wr1 (fun x => x) (fun x => rd B (rowBase + x)) cols zeroBuf

def invLinRestoreRow (cols rowBase : Nat) : Nat → Buf → Buf :=
  ip (fun k L =>
    let even1 := rowBase + 2 * k
    let odd := rowBase + 2 * k + 1
    let even2 := rowBase + 2 * k + (if 2 * k + 2 < cols then 2 else 0)
    let prediction := (rd L even1 + rd L even2) >>> 1
    upd L odd (clampU8 (sext (rd L odd) * 2 + (prediction : Int))))

def invLinRow (w cols rowBase : Nat) (B : Buf) : Buf :=
  invLinRestoreRow cols rowBase ((cols + 1) / 2)
    (wr2 (fun k => rowBase + 2 * k) (fun k => rowBase + 2 * k + 1)
      (fun k => rd (invLinRowBufCopy cols rowBase B) k)
      (fun k => rd (invLinRowBufCopy cols rowBase B) ((cols + 2 * k) / 2))
      ((cols + 1) / 2) B)

def invLinRows (w cols rows : Nat) (B : Buf) : Buf :=
  ip (fun y L => invLinRow w cols (y * w) L) rows B

def invLinearLevel (w h level : Nat) (B : Buf) : Buf :=
  invLinRows w (w >>> (level - 1)) (h >>> (level - 1))
    (invLinCols w (w >>> (level - 1)) (h >>> (level - 1)) B)

def waveletInvLinear (w h levels : Nat) (B : Buf) : Buf :=
  ip (fun k L => invLinearLevel w h (levels - k) L) levels B

/-! ## Plain inverse Haar (current revision: no gate, gain or bias) -/

/-- Pair computation of the current revision's `waveletInvHaar`:
sign-extend, invert, clamp — no noise gate, gain shift or bias boost. -/
def invHaarPairPlain (av dv : Nat) : Nat × Nat :=
  let b0 : Int := sext dv
  let a1 : Int := (av : Int) - b0
  let b2 : Int := b0 * 2 + a1
  (clampU8 a1, clampU8 b2)

def invHaarColBufPlain (w rows x : Nat) (B : Buf) : Buf :=
  wr2 (fun k => 2 * k) (fun k => 2 * k + 1)
    (fun k => (invHaarPairPlain
        (rd B (w * k + x)) (rd B (w * ((rows + 2 * k) / 2) + x))).1)
    (fun k => (invHaarPairPlain
        (rd B (w * k + x)) (rd B (w * ((rows + 2 * k) / 2) + x))).2)
    ((rows + 1) / 2) zeroBuf

def invHaarColPlain (w rows x : Nat) (B : Buf) : Buf :=
  wr1 (fun y => y * w + x)
    (fun y => rd (invHaarColBufPlain w rows x B) y) rows B

def invHaarRowBufPlain (cols rowBase : Nat) (B : Buf) : Buf :=
  wr2 (fun k => 2 * k) (fun k => 2 * k + 1)
    (fun k => (invHaarPairPlain
        (rd B (rowBase + k)) (rd B (rowBase + (cols + 2 * k) / 2))).1)
    (fun k => (invHaarPairPlain
        (rd B (rowBase + k)) (rd B (rowBase + (cols + 2 * k) / 2))).2)
    ((cols + 1) / 2) zeroBuf

def invHaarRowPlain (w cols rowBase : Nat) (B : Buf) : Buf :=
  wr1 (fun x' => rowBase + x')
    (fun x' => rd (invHaarRowBufPlain cols rowBase B) x') cols B

def invHaarLevelPlain (w h level : Nat) (B : Buf) : Buf :=
  ip (fun y L => invHaarRowPlain w (w >>> (level - 1)) (y * w) L)
    (h >>> (level - 1))
    (ip (fun x L => invHaarColPlain w (h >>> (level - 1)) x L)
      (w >>> (level - 1)) B)

/-- `waveletInvHaar(w, h, levels, luma)` of the current revision. -/
def waveletInvHaar (w h levels : Nat) (B : Buf) : Buf :=
  ip (fun k L => invHaarLevelPlain w h (levels - k) L) levels B

/-! ## The frame pipeline (`handleNewFrame`, current revision)

Only the filter chain between luma extraction and re-encoding is modelled:
transform switch (with optional inverse), contrast switch, optional luma
inversion, optional one-bit threshold.  The luma array has `w * h`
entries. -/

structure Config where
  transform : String
  invWave : Bool
  levels : Nat
  squash : Bool
  sqbias : Nat
  contrast : String
  invLuma : Bool
  onebitOn : Bool
  onebitBias : Nat

def processLuma (cfg : Config) (w h : Nat) (L : Buf) : Buf :=
  let L1 :=
    if cfg.transform = "Haar" then
      let Lf := waveletFwdHaar w h cfg.levels cfg.squash cfg.sqbias L
      if cfg.invWave then waveletInvHaar w h cfg.levels Lf else Lf
    else if cfg.transform = "Linear" then
      let Lf := waveletFwdLinear w h cfg.levels cfg.squash cfg.sqbias L
      if cfg.invWave then waveletInvLinear w h cfg.levels Lf else Lf
    else L
  let L2 := if cfg.contrast = "Histogram" then autoContrastHistogram w h L1
    else L1
  let L3 := if cfg.invLuma then invert (w * h) L2 else L2
  if cfg.onebitOn then onebit cfg.onebitBias (w * h) L3 else L3

/-! ## C6 — no level-count validation exists -/

theorem ip_id (n : Nat) (B : Buf) : ip (fun _ L => L) n B = B := by
  induction n with
  | zero => rfl
  | succ m ih => exact ih

/-- C6 counterexample: for `w = h = 2` a request of 3 levels exceeds
`log2(min(w,h)) = 1` (the level-3 subregion degenerates to zero width),
yet processing a frame raises no error and does **not** leave the buffer
untouched — sample 1 of the buffer `[0,1,0,1]` is changed. -/
theorem no_level_validation :
    (2 : Nat) >>> (3 - 1) = 0 ∧
      processLuma ⟨"Haar", false, 3, false, 0, "None", false, false, 0⟩ 2 2
          (fun i => i % 2) 1
        ≠ (fun i => i % 2 : Buf) 1 := by
  constructor
  · decide
  · decide

/-- C6 (amended): no validation of the requested level count is performed
anywhere — `handleNewFrame` applies the forward transform unconditionally
and earlier levels mutate the buffer normally (see the counterexample);
once a level's subregion has degenerated to zero extent, that level is
silently a no-op rather than an error. -/
theorem degenerate_level_noop (w h : Nat) (sq : Bool)
    (sqbias levels level : Nat) (B : Buf)
    (hdeg : w >>> (level - 1) = 0 ∨ h >>> (level - 1) = 0) :
    fwdHaarLevel w h sq sqbias levels level B = B := by
  rcases hdeg with hc0 | hr0
  · unfold fwdHaarLevel fwdHaarCols fwdHaarRows
    rw [hc0]
    show ip (fun y L => fwdHaarRow w 0 (y * w) L) (h >>> (level - 1)) B = B
    rw [ip_congr (fun y L => fwdHaarRow w 0 (y * w) L) (fun _ L => L) _ B
      (fun k hk L => rfl)]
    exact ip_id _ _
  · unfold fwdHaarLevel fwdHaarCols fwdHaarRows
    rw [hr0]
    show ip (fun x L => fwdHaarCol w (w >>> (level - 1)) 0 sq level levels
        sqbias x L) (w >>> (level - 1)) (ip (fun y L => fwdHaarRow w
        (w >>> (level - 1)) (y * w) L) 0 B) = B
    show ip (fun x L => fwdHaarCol w (w >>> (level - 1)) 0 sq level levels
        sqbias x L) (w >>> (level - 1)) B = B
    rw [ip_congr (fun x L => fwdHaarCol w (w >>> (level - 1)) 0 sq level
        levels sqbias x L) (fun _ L => L) _ B (fun k hk L => rfl)]
    exact ip_id _ _

/-- C6 witness: the degenerate level 3 of a 2×2 buffer is a no-op. -/
theorem degenerate_level_noop_witness :
    ((2 : Nat) >>> (3 - 1) = 0 ∨ (2 : Nat) >>> (3 - 1) = 0) ∧
      fwdHaarLevel 2 2 false 0 3 3 (fun i => i % 2) = (fun i => i % 2 : Buf) :=
  ⟨Or.inl (by decide), degenerate_level_noop 2 2 false 0 3 3 (fun i => i % 2)
    (Or.inl (by decide))⟩


/-! ## Read-off of the forward-linear horizontal pass -/

/-- One-step unfolding of the horizontal predict loop. -/
theorem linPredictRow_succ (cols rowBase m : Nat) (B : Buf) :
    linPredictRow cols rowBase (m + 1) B
      = upd (linPredictRow cols rowBase m B) (rowBase + 2 * m + 1)
          (toU8
            (if jsShr ((rd (linPredictRow cols rowBase m B)
                  (rowBase + 2 * m + 1) : Int)
                - (((rd (linPredictRow cols rowBase m B) (rowBase + 2 * m)
                    + rd (linPredictRow cols rowBase m B)
                      (rowBase + 2 * m + (if 2 * m + 2 < cols then 2 else 0)))
                      >>> 1 : Nat) : Int)) 1 < -128
             then -128
             else if jsShr ((rd (linPredictRow cols rowBase m B)
                  (rowBase + 2 * m + 1) : Int)
                - (((rd (linPredictRow cols rowBase m B) (rowBase + 2 * m)
                    + rd (linPredictRow cols rowBase m B)
                      (rowBase + 2 * m + (if 2 * m + 2 < cols then 2 else 0)))
                      >>> 1 : Nat) : Int)) 1 > 127
             then 127
             else jsShr ((rd (linPredictRow cols rowBase m B)
                  (rowBase + 2 * m + 1) : Int)
                - (((rd (linPredictRow cols rowBase m B) (rowBase + 2 * m)
                    + rd (linPredictRow cols rowBase m B)
                      (rowBase + 2 * m + (if 2 * m + 2 < cols then 2 else 0)))
                      >>> 1 : Nat) : Int)) 1)) := rfl

theorem linPredictRow_untouched (cols rowBase n : Nat) (B : Buf) (j : Nat)
    (hj : ∀ k, k < n → j ≠ rowBase + 2 * k + 1) :
    linPredictRow cols rowBase n B j = B j := by
  induction n with
  | zero => rfl
  | succ m ih =>
      rw [linPredictRow_succ, upd_ne _ _ _ _ (hj m (by omega))]
      exact ih (fun k hk => hj k (by omega))

theorem linPredictRow_const (cols rowBase : Nat) (c : Nat) (B : Buf)
    (hc : c ≤ 255) (h2 : cols % 2 = 0)
    (hconst : ∀ z, z < cols → rd B (rowBase + z) = c) :
    ∀ n, n ≤ cols / 2 →
      (∀ k, k < n → linPredictRow cols rowBase n B (rowBase + 2 * k + 1) = 0) ∧
      (∀ j, (∀ k, k < n → j ≠ rowBase + 2 * k + 1) →
        linPredictRow cols rowBase n B j = B j) := by
  intro n
  induction n with
  | zero => exact fun _ => ⟨fun k hk => by omega, fun j hj => rfl⟩
  | succ m ih =>
      intro hm
      obtain ⟨ih1, ih2⟩ := ih (by omega)
      have hBm : ∀ z, z < cols →
          (∀ k, k < m → rowBase + z ≠ rowBase + 2 * k + 1) →
          rd (linPredictRow cols rowBase m B) (rowBase + z) = c := by
        intro z hz hne
        rw [rd_ext _ B _ (linPredictRow_untouched cols rowBase m B
          (rowBase + z) hne)]
        exact hconst z hz
      have he1 : rd (linPredictRow cols rowBase m B) (rowBase + 2 * m) = c :=
        hBm (2 * m) (by omega) (fun k hk => by omega)
      have he2 : rd (linPredictRow cols rowBase m B)
          (rowBase + 2 * m + (if 2 * m + 2 < cols then 2 else 0)) = c := by
        by_cases hlt : 2 * m + 2 < cols
        · rw [if_pos hlt, show rowBase + 2 * m + 2
              = rowBase + (2 * m + 2) from by omega]
          exact hBm (2 * m + 2) (by omega) (fun k hk => by omega)
        · rw [if_neg hlt, Nat.add_zero]
          exact he1
      have hodd : rd (linPredictRow cols rowBase m B) (rowBase + 2 * m + 1)
          = c := by
        rw [show rowBase + 2 * m + 1 = rowBase + (2 * m + 1) from by omega]
        exact hBm (2 * m + 1) (by omega) (fun k hk => by omega)
      constructor
      · intro k hk
        by_cases hkm : k = m
        · subst hkm
          rw [linPredictRow_succ, upd_self, he1, he2, hodd]
          have hp : ((c + c) >>> 1 : Nat) = c := by
            rw [shiftRight_one_div]
            omega
          rw [hp]
          have hd0 : jsShr ((c : Int) - (c : Int)) 1 = 0 := by
            rw [sub_self]
            unfold jsShr
            norm_num
          rw [hd0]
          norm_num
          rfl
        · rw [linPredictRow_succ, upd_ne _ _ _ _ (by omega)]
          exact ih1 k (by omega)
      · intro j hj
        rw [linPredictRow_succ, upd_ne _ _ _ _ (hj m (by omega))]
        exact ih2 j (fun k hk => hj k (by omega))

theorem linDeintRowBuf_avg (cols rowBase : Nat) (B : Buf) (h2 : cols % 2 = 0)
    (k : Nat) (hk : k < cols / 2) :
    linDeintRowBuf cols rowBase B k = rd B (rowBase + 2 * k) := by
  unfold linDeintRowBuf
  exact wr2_hit1 _ _ _ _ _ _ k (by omega)
    (fun k' h1' h2' => by omega) (fun k' h1' h2' => by omega)

theorem linDeintRowBuf_diff (cols rowBase : Nat) (B : Buf) (h2 : cols % 2 = 0)
    (k : Nat) (hk : k < cols / 2) :
    linDeintRowBuf cols rowBase B (cols / 2 + k)
      = rd B (rowBase + 2 * k + 1) := by
  unfold linDeintRowBuf
  have hidx : cols / 2 + k = (cols + 2 * k) / 2 := by omega
  rw [hidx]
  exact wr2_hit2 _ _ _ _ _ _ k (by omega)
    (fun k' h1' h2' => by omega) (fun k' h1' h2' => by omega)

theorem linRowH_in (w cols rowBase : Nat) (B : Buf) (h2 : cols % 2 = 0)
    (x : Nat) (hx : x < cols) :
    linRowH w cols rowBase B (rowBase + x) =
      if x < cols / 2 then
        rd (linPredictRow cols rowBase ((cols + 1) / 2) B) (rowBase + 2 * x)
      else
        rd (linPredictRow cols rowBase ((cols + 1) / 2) B)
          (rowBase + 2 * (x - cols / 2) + 1) := by
  unfold linRowH
  rw [wr1_hit _ _ cols _ x hx (fun k' h1' h2' => by omega)]
  by_cases hxh : x < cols / 2
  · rw [if_pos hxh,
      show rd (linDeintRowBuf cols rowBase
          (linPredictRow cols rowBase ((cols + 1) / 2) B)) x
        = linDeintRowBuf cols rowBase
          (linPredictRow cols rowBase ((cols + 1) / 2) B) x % 256 from rfl,
      linDeintRowBuf_avg cols rowBase _ h2 x hxh, rd_rd]
  · rw [if_neg hxh,
      show rd (linDeintRowBuf cols rowBase
          (linPredictRow cols rowBase ((cols + 1) / 2) B)) x
        = linDeintRowBuf cols rowBase
          (linPredictRow cols rowBase ((cols + 1) / 2) B) x % 256 from rfl]
    conv_lhs => rw [show x = cols / 2 + (x - cols / 2) from by omega]
    rw [linDeintRowBuf_diff cols rowBase _ h2 (x - cols / 2) (by omega), rd_rd]

theorem linRowH_avg (w cols rowBase : Nat) (B : Buf) (h2 : cols % 2 = 0)
    (x : Nat) (hx : x < cols / 2) :
    linRowH w cols rowBase B (rowBase + x) = rd B (rowBase + 2 * x) := by
  rw [linRowH_in w cols rowBase B h2 x (by omega), if_pos hx]
  apply rd_ext
  exact linPredictRow_untouched cols rowBase _ B _ (fun k hk => by omega)

theorem linRowH_out (w cols rowBase : Nat) (B : Buf) (h2 : cols % 2 = 0)
    (j : Nat) (hj : ¬(rowBase ≤ j ∧ j < rowBase + cols)) :
    linRowH w cols rowBase B j = B j := by
  unfold linRowH
  rw [wr1_untouched _ _ cols _ j (fun k hk => by omega)]
  exact linPredictRow_untouched cols rowBase _ B j (fun k hk => by omega)

theorem linRowH_const (w cols rowBase : Nat) (c : Nat) (B : Buf)
    (hc : c ≤ 255) (h2 : cols % 2 = 0)
    (hconst : ∀ z, z < cols → rd B (rowBase + z) = c) :
    ∀ x, x < cols →
      linRowH w cols rowBase B (rowBase + x)
        = if x < cols / 2 then c else 0 := by
  intro x hx
  rw [linRowH_in w cols rowBase B h2 x hx]
  obtain ⟨hp1, hp2⟩ := linPredictRow_const cols rowBase c B hc h2 hconst
    ((cols + 1) / 2) (by omega)
  by_cases hxh : x < cols / 2
  · rw [if_pos hxh, if_pos hxh]
    rw [rd_ext _ B _ (hp2 (rowBase + 2 * x) (fun k hk => by omega))]
    exact hconst (2 * x) (by omega)
  · rw [if_neg hxh, if_neg hxh,
      show rd (linPredictRow cols rowBase ((cols + 1) / 2) B)
          (rowBase + 2 * (x - cols / 2) + 1)
        = linPredictRow cols rowBase ((cols + 1) / 2) B
          (rowBase + 2 * (x - cols / 2) + 1) % 256 from rfl,
      hp1 (x - cols / 2) (by omega)]

theorem linRowsH_eq (w cols : Nat) (B : Buf) (h2 : cols % 2 = 0)
    (hcw : cols ≤ w) :
    ∀ rows,
      (∀ y x, y < rows → x < cols / 2 →
        linRowsH w cols rows B (y * w + x) = rd B (y * w + 2 * x)) ∧
      (∀ j, (∀ y x, y < rows → x < cols → j ≠ y * w + x) →
        linRowsH w cols rows B j = B j) := by
  intro rows
  induction rows with
  | zero => exact ⟨fun y x hy hx => by omega, fun j hj => rfl⟩
  | succ m ih =>
      obtain ⟨ih1, ih2⟩ := ih
      have hstep : linRowsH w cols (m + 1) B
          = linRowH w cols (m * w) (linRowsH w cols m B) := rfl
      have hread : ∀ i, m * w ≤ i → i < m * w + cols →
          rd (linRowsH w cols m B) i = rd B i := by
        intro i hi1 hi2
        apply rd_ext
        apply ih2
        intro y' x' hy' hx' heq
        have hlt := row_lt_row w y' m x' 0 (lt_of_lt_of_le hx' hcw) hy'
        omega
      constructor
      · intro y x hy hx
        rw [hstep]
        by_cases hym : y = m
        · subst hym
          rw [linRowH_avg w cols (y * w) _ h2 x hx,
            hread (y * w + 2 * x) (by omega) (by omega)]
        · have hy' : y < m := by omega
          rw [linRowH_out w cols (m * w) _ h2]
          · exact ih1 y x hy' hx
          · intro hcontra
            have hlt := row_lt_row w y m x 0 (by omega) hy'
            omega
      · intro j hj
        rw [hstep, linRowH_out w cols (m * w) _ h2]
        · exact ih2 j (fun y x hy hx => hj y x (by omega) hx)
        · intro hcontra
          exact hj m (j - m * w) (by omega) (by omega) (by omega)

theorem linRowsH_const (w cols rows : Nat) (c : Nat) (B : Buf)
    (hc : c ≤ 255) (h2 : cols % 2 = 0) (hcw : cols ≤ w)
    (hconst : ∀ y z, y < rows → z < cols → rd B (y * w + z) = c) :
    ∀ n, n ≤ rows →
      (∀ y x, y < n → x < cols →
        linRowsH w cols n B (y * w + x) = if x < cols / 2 then c else 0) ∧
      (∀ j, (∀ y x, y < n → x < cols → j ≠ y * w + x) →
        linRowsH w cols n B j = B j) := by
  intro n
  induction n with
  | zero => exact fun _ => ⟨fun y x hy hx => by omega, fun j hj => rfl⟩
  | succ m ih =>
      intro hn
      obtain ⟨ih1, ih2⟩ := ih (by omega)
      have hstep : linRowsH w cols (m + 1) B
          = linRowH w cols (m * w) (linRowsH w cols m B) := rfl
      have hrowm : ∀ z, z < cols →
          rd (linRowsH w cols m B) (m * w + z) = c := by
        intro z hz
        rw [rd_ext _ B _ (ih2 (m * w + z) (fun y' x' hy' hx' heq => by
          have hlt := row_lt_row w y' m x' 0 (lt_of_lt_of_le hx' hcw) hy'
          omega))]
        exact hconst m z (by omega) hz
      constructor
      · intro y x hy hx
        rw [hstep]
        by_cases hym : y = m
        · subst hym
          exact linRowH_const w cols (y * w) c _ hc h2 hrowm x hx
        · have hy' : y < m := by omega
          rw [linRowH_out w cols (m * w) _ h2]
          · exact ih1 y x hy' hx
          · intro hcontra
            have hlt := row_lt_row w y m x 0 (by omega) hy'
            omega
      · intro j hj
        rw [hstep, linRowH_out w cols (m * w) _ h2]
        · exact ih2 j (fun y x hy hx => hj y x (by omega) hx)
        · intro hcontra
          exact hj m (j - m * w) (by omega) (by omega) (by omega)

/-! ## Read-off of the forward-linear vertical pass -/

/-- One-step unfolding of the vertical predict loop. -/
theorem linPredictCol_succ (w rows x m : Nat) (B : Buf) :
    linPredictCol w rows x (m + 1) B
      = upd (linPredictCol w rows x m B) (2 * m * w + x + w)
          (toU8
            (if jsShr ((rd (linPredictCol w rows x m B)
                  (2 * m * w + x + w) : Int)
                - (((rd (linPredictCol w rows x m B) (2 * m * w + x)
                    + rd (linPredictCol w rows x m B)
                      (if 2 * m + 2 < rows then 2 * m * w + x + w + w
                       else 2 * m * w + x)) >>> 1 : Nat) : Int)) 1 < -128
             then -128
             else if jsShr ((rd (linPredictCol w rows x m B)
                  (2 * m * w + x + w) : Int)
                - (((rd (linPredictCol w rows x m B) (2 * m * w + x)
                    + rd (linPredictCol w rows x m B)
                      (if 2 * m + 2 < rows then 2 * m * w + x + w + w
                       else 2 * m * w + x)) >>> 1 : Nat) : Int)) 1 > 127
             then 127
             else jsShr ((rd (linPredictCol w rows x m B)
                  (2 * m * w + x + w) : Int)
                - (((rd (linPredictCol w rows x m B) (2 * m * w + x)
                    + rd (linPredictCol w rows x m B)
                      (if 2 * m + 2 < rows then 2 * m * w + x + w + w
                       else 2 * m * w + x)) >>> 1 : Nat) : Int)) 1)) := rfl

theorem linPredictCol_untouched (w rows x n : Nat) (B : Buf) (j : Nat)
    (hj : ∀ k, k < n → j ≠ 2 * k * w + x + w) :
    linPredictCol w rows x n B j = B j := by
  induction n with
  | zero => rfl
  | succ m ih =>
      rw [linPredictCol_succ, upd_ne _ _ _ _ (hj m (by omega))]
      exact ih (fun k hk => hj k (by omega))

theorem linPredictCol_const (w rows x : Nat) (v : Nat) (B : Buf)
    (hv : v ≤ 255) (h2 : rows % 2 = 0) (hw : 0 < w) (hxw : x < w)
    (hconst : ∀ yr, yr < rows → rd B (yr * w + x) = v) :
    ∀ n, n ≤ rows / 2 →
      (∀ k, k < n → linPredictCol w rows x n B (2 * k * w + x + w) = 0) ∧
      (∀ j, (∀ k, k < n → j ≠ 2 * k * w + x + w) →
        linPredictCol w rows x n B j = B j) := by
  intro n
  induction n with
  | zero => exact fun _ => ⟨fun k hk => by omega, fun j hj => rfl⟩
  | succ m ih =>
      intro hm
      obtain ⟨ih1, ih2⟩ := ih (by omega)
      have hBm : ∀ yr, yr < rows → yr % 2 = 0 →
          rd (linPredictCol w rows x m B) (yr * w + x) = v := by
        intro yr hyr hyre
        rw [rd_ext _ B _ (linPredictCol_untouched w rows x m B (yr * w + x)
          (fun k hk heq => by
            have hodd : 2 * k * w + x + w = (2 * k + 1) * w + x := by ring
            rw [hodd] at heq
            have := (coord_inj w x x yr (2 * k + 1) hxw hxw heq).1
            omega))]
        exact hconst yr hyr
      have he1 : rd (linPredictCol w rows x m B) (2 * m * w + x) = v :=
        hBm (2 * m) (by omega) (by omega)
      have he2 : rd (linPredictCol w rows x m B)
          (if 2 * m + 2 < rows then 2 * m * w + x + w + w
           else 2 * m * w + x) = v := by
        by_cases hlt : 2 * m + 2 < rows
        · rw [if_pos hlt,
            show 2 * m * w + x + w + w = (2 * m + 2) * w + x from by ring]
          exact hBm (2 * m + 2) (by omega) (by omega)
        · rw [if_neg hlt]
          exact he1
      have hodd : rd (linPredictCol w rows x m B) (2 * m * w + x + w) = v := by
        rw [show 2 * m * w + x + w = (2 * m + 1) * w + x from by ring,
          rd_ext _ B _ (linPredictCol_untouched w rows x m B
            ((2 * m + 1) * w + x) (fun k hk heq => by
              have hodd2 : 2 * k * w + x + w = (2 * k + 1) * w + x := by ring
              rw [hodd2] at heq
              have := (coord_inj w x x (2 * m + 1) (2 * k + 1) hxw hxw heq).1
              omega))]
        exact hconst (2 * m + 1) (by omega)
      constructor
      · intro k hk
        by_cases hkm : k = m
        · subst hkm
          rw [linPredictCol_succ, upd_self, he1, he2, hodd]
          have hp : ((v + v) >>> 1 : Nat) = v := by
            rw [shiftRight_one_div]
            omega
          rw [hp]
          have hd0 : jsShr ((v : Int) - (v : Int)) 1 = 0 := by
            rw [sub_self]
            unfold jsShr
            norm_num
          rw [hd0]
          norm_num
          rfl
        · rw [linPredictCol_succ, upd_ne _ _ _ _ (fun heq => by
            have h1 : 2 * k * w + x + w = (2 * k + 1) * w + x := by ring
            have h2' : 2 * m * w + x + w = (2 * m + 1) * w + x := by ring
            rw [h1, h2'] at heq
            have := (coord_inj w x x (2 * k + 1) (2 * m + 1) hxw hxw heq).1
            omega)]
          exact ih1 k (by omega)
      · intro j hj
        rw [linPredictCol_succ, upd_ne _ _ _ _ (hj m (by omega))]
        exact ih2 j (fun k hk => hj k (by omega))

theorem linDeintColBuf_avg (w cols rows : Nat) (sq : Bool)
    (level levels sqbias x : Nat) (B : Buf) (hr : rows % 2 = 0)
    (k : Nat) (hk : k < rows / 2) :
    linDeintColBuf w cols rows sq level levels sqbias x B k =
      if sq ∧ level = levels ∧ x < cols >>> 1 then sqbias % 256
      else rd B (2 * k * w + x) := by
  unfold linDeintColBuf
  exact wr2_hit1 _ _ _ _ _ _ k (by omega)
    (fun k' h1 h2 => by omega) (fun k' h1 h2 => by omega)

theorem linDeintColBuf_diff (w cols rows : Nat) (sq : Bool)
    (level levels sqbias x : Nat) (B : Buf) (hr : rows % 2 = 0)
    (k : Nat) (hk : k < rows / 2) :
    linDeintColBuf w cols rows sq level levels sqbias x B (rows / 2 + k) =
      rd B ((2 * k + 1) * w + x) := by
  unfold linDeintColBuf
  have hidx : rows / 2 + k = (rows + 2 * k) / 2 := by omega
  rw [hidx]
  exact wr2_hit2 _ _ _ _ _ _ k (by omega)
    (fun k' h1 h2 => by omega) (fun k' h1 h2 => by omega)

theorem linColV_in (w cols rows : Nat) (level levels sqbias x : Nat) (B : Buf)
    (hr : rows % 2 = 0) (hxw : x < w) (y : Nat) (hy : y < rows) :
    linColV w cols rows false level levels sqbias x B (y * w + x) =
      if y < rows / 2 then
        rd (linPredictCol w rows x ((rows + 1) / 2) B) (2 * y * w + x)
      else
        rd (linPredictCol w rows x ((rows + 1) / 2) B)
          ((2 * (y - rows / 2) + 1) * w + x) := by
  unfold linColV
  rw [wr1_hit _ _ rows _ y hy (fun y' h1 h2 heq =>
    absurd (coord_inj w x x y' y hxw hxw heq).1 (by omega))]
  have hsqf : ¬((false : Bool) ∧ level = levels ∧ x < cols >>> 1) := by
    intro hcon
    exact Bool.false_ne_true hcon.1
  by_cases hyh : y < rows / 2
  · rw [if_pos hyh,
      show rd (linDeintColBuf w cols rows false level levels sqbias x
          (linPredictCol w rows x ((rows + 1) / 2) B)) y
        = linDeintColBuf w cols rows false level levels sqbias x
          (linPredictCol w rows x ((rows + 1) / 2) B) y % 256 from rfl,
      linDeintColBuf_avg w cols rows false level levels sqbias x _ hr y hyh,
      if_neg hsqf]
    exact Nat.mod_eq_of_lt (rd_lt_256 _ _)
  · rw [if_neg hyh,
      show rd (linDeintColBuf w cols rows false level levels sqbias x
          (linPredictCol w rows x ((rows + 1) / 2) B)) y
        = linDeintColBuf w cols rows false level levels sqbias x
          (linPredictCol w rows x ((rows + 1) / 2) B) y % 256 from rfl]
    conv_lhs => rw [show y = rows / 2 + (y - rows / 2) from by omega]
    rw [linDeintColBuf_diff w cols rows false level levels sqbias x _ hr
        (y - rows / 2) (by omega)]
    exact Nat.mod_eq_of_lt (rd_lt_256 _ _)

theorem linColV_out (w cols rows : Nat) (level levels sqbias x : Nat) (B : Buf)
    (hr : rows % 2 = 0) (j : Nat)
    (hj : ∀ y, y < rows → j ≠ y * w + x) :
    linColV w cols rows false level levels sqbias x B j = B j := by
  unfold linColV
  rw [wr1_untouched _ _ rows _ j (fun y hy heq => hj y hy heq.symm)]
  exact linPredictCol_untouched w rows x _ B j (fun k hk heq => by
    have hodd : 2 * k * w + x + w = (2 * k + 1) * w + x := by ring
    rw [hodd] at heq
    exact hj (2 * k + 1) (by omega) heq)

theorem linColV_avg (w cols rows : Nat) (level levels sqbias x : Nat) (B : Buf)
    (hr : rows % 2 = 0) (hxw : x < w) (y : Nat) (hy : y < rows / 2) :
    linColV w cols rows false level levels sqbias x B (y * w + x) =
      rd B (2 * y * w + x) := by
  rw [linColV_in w cols rows level levels sqbias x B hr hxw y (by omega),
    if_pos hy]
  apply rd_ext
  apply linPredictCol_untouched
  intro k hk heq
  have hodd : 2 * k * w + x + w = (2 * k + 1) * w + x := by ring
  rw [hodd] at heq
  have := (coord_inj w x x (2 * y) (2 * k + 1) hxw hxw heq).1
  omega

theorem linColV_const (w cols rows : Nat) (level levels sqbias x : Nat)
    (v : Nat) (B : Buf) (hv : v ≤ 255) (hr : rows % 2 = 0) (hw : 0 < w)
    (hxw : x < w)
    (hconst : ∀ yr, yr < rows → rd B (yr * w + x) = v) :
    ∀ y, y < rows →
      linColV w cols rows false level levels sqbias x B (y * w + x) =
        if y < rows / 2 then v else 0 := by
  intro y hy
  obtain ⟨hp1, _⟩ := linPredictCol_const w rows x v B hv hr hw hxw hconst
    ((rows + 1) / 2) (by omega)
  rw [linColV_in w cols rows level levels sqbias x B hr hxw y hy]
  by_cases hyh : y < rows / 2
  · rw [if_pos hyh, if_pos hyh,
      rd_ext _ B _ (linPredictCol_untouched w rows x _ B (2 * y * w + x)
        (fun k hk heq => by
          have hodd : 2 * k * w + x + w = (2 * k + 1) * w + x := by ring
          rw [hodd] at heq
          have := (coord_inj w x x (2 * y) (2 * k + 1) hxw hxw heq).1
          omega))]
    exact hconst (2 * y) (by omega)
  · rw [if_neg hyh, if_neg hyh,
      show (2 * (y - rows / 2) + 1) * w + x
          = 2 * (y - rows / 2) * w + x + w from by ring]
    show linPredictCol w rows x ((rows + 1) / 2) B
        (2 * (y - rows / 2) * w + x + w) % 256 = 0
    rw [hp1 (y - rows / 2) (by omega)]

theorem linColsV_eq (w cols rows : Nat) (level levels sqbias : Nat) (B : Buf)
    (hr : rows % 2 = 0) (hcw : cols ≤ w) :
    ∀ m, m ≤ cols →
      (∀ y x, y < rows / 2 → x < m →
        ip (fun x' L => linColV w cols rows false level levels sqbias x' L) m B
            (y * w + x) = rd B (2 * y * w + x)) ∧
      (∀ j, (∀ y x, y < rows → x < m → j ≠ y * w + x) →
        ip (fun x' L => linColV w cols rows false level levels sqbias x' L) m B
          j = B j) := by
  intro m
  induction m with
  | zero => exact fun _ => ⟨fun y x hy hx => by omega, fun j hj => rfl⟩
  | succ m ih =>
      intro hm
      obtain ⟨ih1, ih2⟩ := ih (by omega)
      have hmw : m < w := by omega
      have hstep : ip (fun x' L => linColV w cols rows false level levels
            sqbias x' L) (m + 1) B
          = linColV w cols rows false level levels sqbias m
            (ip (fun x' L => linColV w cols rows false level levels sqbias x' L)
              m B) := rfl
      have hread : ∀ yr, yr < rows →
          rd (ip (fun x' L => linColV w cols rows false level levels sqbias x' L)
              m B) (yr * w + m)
            = rd B (yr * w + m) := by
        intro yr hyr
        apply rd_ext
        apply ih2
        intro y' x' hy' hx' heq
        exact absurd (coord_inj w m x' yr y' hmw (by omega) heq).2 (by omega)
      constructor
      · intro y x hy hx
        rw [hstep]
        by_cases hxm : x = m
        · subst hxm
          rw [linColV_avg w cols rows level levels sqbias x _ hr (by omega) y hy]
          exact hread (2 * y) (by omega)
        · rw [linColV_out w cols rows level levels sqbias m _ hr (y * w + x)
            (fun y' hy' heq =>
              absurd (coord_inj w x m y y' (by omega) hmw heq).2 (by omega))]
          exact ih1 y x hy (by omega)
      · intro j hj
        rw [hstep, linColV_out w cols rows level levels sqbias m _ hr j
          (fun y hy heq => hj y m hy (by omega) heq)]
        exact ih2 j (fun y x hy hx => hj y x hy (by omega))

theorem linColsV_const (w cols rows : Nat) (level levels sqbias : Nat)
    (V : Nat → Nat) (B : Buf) (hv : ∀ x, x < cols → V x ≤ 255)
    (hr : rows % 2 = 0) (hcw : cols ≤ w) (hw : 0 < w)
    (hconst : ∀ y x, y < rows → x < cols → rd B (y * w + x) = V x) :
    ∀ m, m ≤ cols →
      (∀ y x, y < rows → x < m →
        ip (fun x' L => linColV w cols rows false level levels sqbias x' L) m B
            (y * w + x) = if y < rows / 2 then V x else 0) ∧
      (∀ j, (∀ y x, y < rows → x < m → j ≠ y * w + x) →
        ip (fun x' L => linColV w cols rows false level levels sqbias x' L) m B
          j = B j) := by
  intro m
  induction m with
  | zero => exact fun _ => ⟨fun y x hy hx => by omega, fun j hj => rfl⟩
  | succ m ih =>
      intro hm
      obtain ⟨ih1, ih2⟩ := ih (by omega)
      have hmw : m < w := by omega
      have hstep : ip (fun x' L => linColV w cols rows false level levels
            sqbias x' L) (m + 1) B
          = linColV w cols rows false level levels sqbias m
            (ip (fun x' L => linColV w cols rows false level levels sqbias x' L)
              m B) := rfl
      have hread : ∀ yr, yr < rows →
          rd (ip (fun x' L => linColV w cols rows false level levels sqbias x' L)
              m B) (yr * w + m)
            = V m := by
        intro yr hyr
        rw [rd_ext _ B _ (ih2 (yr * w + m) (fun y' x' hy' hx' heq =>
          absurd (coord_inj w m x' yr y' hmw (by omega) heq).2 (by omega)))]
        exact hconst yr m hyr (by omega)
      constructor
      · intro y x hy hx
        rw [hstep]
        by_cases hxm : x = m
        · subst hxm
          exact linColV_const w cols rows level levels sqbias x (V x) _
            (hv x (by omega)) hr hw (by omega) hread y hy
        · rw [linColV_out w cols rows level levels sqbias m _ hr (y * w + x)
            (fun y' hy' heq =>
              absurd (coord_inj w x m y y' (by omega) hmw heq).2 (by omega))]
          exact ih1 y x hy (by omega)
      · intro j hj
        rw [hstep, linColV_out w cols rows level levels sqbias m _ hr j
          (fun y hy heq => hj y m hy (by omega) heq)]
        exact ih2 j (fun y x hy hx => hj y x hy (by omega))

/-- One forward-linear level on a constant buffer: the processed rectangle
becomes `c` on the quarter nearest the origin and `0` elsewhere, and nothing
outside the rectangle changes. -/
theorem fwdLinearLevel_const (w h : Nat) (sqbias levels level c : Nat) (B : Buf)
    (hc255 : c ≤ 255) (hw : 0 < w)
    (hc2 : (w >>> (level - 1)) % 2 = 0) (hr2 : (h >>> (level - 1)) % 2 = 0)
    (hconst : ∀ y x, y < h >>> (level - 1) → x < w >>> (level - 1) →
      rd B (y * w + x) = c) :
    (∀ y x, y < h >>> (level - 1) → x < w >>> (level - 1) →
      fwdLinearLevel w h false sqbias levels level B (y * w + x) =
        if x < (w >>> (level - 1)) / 2 ∧ y < (h >>> (level - 1)) / 2 then c
        else 0) ∧
    (∀ j, (∀ y x, y < h >>> (level - 1) → x < w >>> (level - 1) →
        j ≠ y * w + x) →
      fwdLinearLevel w h false sqbias levels level B j = B j) := by
  have hcw : w >>> (level - 1) ≤ w := shiftRight_le_self _ _
  obtain ⟨hr1, hr2'⟩ := linRowsH_const w (w >>> (level - 1))
    (h >>> (level - 1)) c B hc255 hc2 hcw hconst (h >>> (level - 1)) (le_refl _)
  have hB1rd : ∀ y x, y < h >>> (level - 1) → x < w >>> (level - 1) →
      rd (linRowsH w (w >>> (level - 1)) (h >>> (level - 1)) B) (y * w + x)
        = if x < (w >>> (level - 1)) / 2 then c else 0 := by
    intro y x hy hx
    show linRowsH w (w >>> (level - 1)) (h >>> (level - 1)) B (y * w + x)
        % 256 = _
    rw [hr1 y x hy hx]
    split <;> omega
  obtain ⟨hcA, hcB⟩ := linColsV_const w (w >>> (level - 1)) (h >>> (level - 1))
    level levels sqbias
    (fun x => if x < (w >>> (level - 1)) / 2 then c else 0)
    (linRowsH w (w >>> (level - 1)) (h >>> (level - 1)) B)
    (fun x _ => by
      by_cases hxx : x < (w >>> (level - 1)) / 2 <;> simp [hxx, hc255])
    hr2 hcw hw hB1rd
    (w >>> (level - 1)) (le_refl _)
  constructor
  · intro y x hy hx
    show ip _ (w >>> (level - 1)) _ (y * w + x) = _
    rw [hcA y x hy hx]
    by_cases hyh : y < (h >>> (level - 1)) / 2
    · rw [if_pos hyh]
      by_cases hxh : x < (w >>> (level - 1)) / 2
      · rw [if_pos hxh, if_pos (And.intro hxh hyh)]
      · rw [if_neg hxh, if_neg (fun hcon => hxh hcon.1)]
    · rw [if_neg hyh, if_neg (fun hcon => hyh hcon.2)]
  · intro j hj
    show ip _ (w >>> (level - 1)) _ j = _
    rw [hcB j hj]
    exact hr2' j hj

/-- Multi-level forward linear transform of a constant buffer: after `m`
levels the value `c` survives on the top-left `w>>>m × h>>>m` rectangle and
every other processed sample is `0`. -/
theorem waveletFwdLinear_const_inv (w h levels c : Nat) (B : Buf)
    (sqbias : Nat) (hc255 : c ≤ 255) (hw : 0 < w)
    (hdw : 2 ^ levels ∣ w) (hdh : 2 ^ levels ∣ h)
    (hconst : ∀ y x, y < h → x < w → rd B (y * w + x) = c) :
    ∀ m, m ≤ levels →
      ∀ y x, y < h → x < w →
        rd (ip (fun k L => fwdLinearLevel w h false sqbias levels (k + 1) L) m B)
            (y * w + x)
          = if x < w >>> m ∧ y < h >>> m then c else 0 := by
  intro m
  induction m with
  | zero =>
      intro _ y x hy hx
      show rd B (y * w + x) = _
      rw [hconst y x hy hx, if_pos]
      exact ⟨by simpa using hx, by simpa using hy⟩
  | succ m ih =>
      intro hm y x hy hx
      have ihm := ih (by omega)
      have hstep : ip (fun k L => fwdLinearLevel w h false sqbias levels (k + 1)
            L) (m + 1) B
          = fwdLinearLevel w h false sqbias levels (m + 1)
            (ip (fun k L => fwdLinearLevel w h false sqbias levels (k + 1) L)
              m B)
          := rfl
      have hms : m + 1 - 1 = m := by omega
      have hchyp : ∀ y' x', y' < h >>> m → x' < w >>> m →
          rd (ip (fun k L => fwdLinearLevel w h false sqbias levels (k + 1) L)
              m B)
            (y' * w + x') = c := by
        intro y' x' hy' hx'
        rw [ihm y' x' (lt_of_lt_of_le hy' (shiftRight_le_self h m))
          (lt_of_lt_of_le hx' (shiftRight_le_self w m))]
        exact if_pos ⟨hx', hy'⟩
      obtain ⟨hlev1, hlev2⟩ := fwdLinearLevel_const w h sqbias levels (m + 1) c
        (ip (fun k L => fwdLinearLevel w h false sqbias levels (k + 1) L) m B)
        hc255 hw (by rw [hms]; exact div_pow_even w levels m hdw (by omega))
        (by rw [hms]; exact div_pow_even h levels m hdh (by omega))
        (by rw [hms]; exact hchyp)
      rw [hms] at hlev1 hlev2
      rw [hstep]
      by_cases hin : x < w >>> m ∧ y < h >>> m
      · show (fwdLinearLevel w h false sqbias levels (m + 1) _) (y * w + x) % 256
            = _
        rw [hlev1 y x hin.2 hin.1]
        rw [shiftRight_succ_div w m, shiftRight_succ_div h m]
        split <;> omega
      · have huntouched := hlev2 (y * w + x) (fun y' x' hy' hx' heq =>
          hin ⟨by
            have := (coord_inj w x x' y y' hx
              (lt_of_lt_of_le hx' (shiftRight_le_self w m)) heq).2
            omega, by
            have := (coord_inj w x x' y y' hx
              (lt_of_lt_of_le hx' (shiftRight_le_self w m)) heq).1
            omega⟩)
        show rd (fwdLinearLevel w h false sqbias levels (m + 1) _) (y * w + x)
            = _
        rw [rd_ext _ _ _ huntouched, ihm y x hy hx]
        have hw2 : w >>> (m + 1) ≤ w >>> m := by
          rw [← shiftRight_succ_div]
          exact Nat.div_le_self _ _
        have hh2 : h >>> (m + 1) ≤ h >>> m := by
          rw [← shiftRight_succ_div]
          exact Nat.div_le_self _ _
        rw [if_neg hin, if_neg (fun hcon => hin ⟨by omega, by omega⟩)]

/-! ## C5 — the claimed update step of the forward Linear transform -/

/-- Modelled from the spec's words, NOT from the source: after the predict
stage, an update step adjusts each even sample using its two neighboring
difference values sign-extended from 8-bit storage,
`update = (diff1 + diff2) >> 5`, `even = clamp(even + update, 0, 255)`
(edge samples reuse their single neighbor). -/
def claimUpdateRow (cols rowBase : Nat) : Nat → Buf → Buf :=
  ip (fun k L =>
    let even := rowBase + 2 * k
    let o1 := if 2 * k > 0 then even - 1 else even + 1
    let o2 := if 2 * k + 1 < cols then even + 1 else even - 1
    let u : Int := jsShr (sext (rd L o1) + sext (rd L o2)) 5
    upd L even (clampU8 ((rd L even : Int) + u)))

/-- Modelled from the spec's words, NOT from the source: one horizontal pass
as the spec describes it — predict, then the update step, then de-interleave.
-/
def claimFwdLinearRow (cols rowBase : Nat) (B : Buf) : Buf :=
  wr1 (fun x => rowBase + x)
    (fun x => rd (linDeintRowBuf cols rowBase
      (claimUpdateRow cols rowBase ((cols + 1) / 2)
        (linPredictRow cols rowBase ((cols + 1) / 2) B))) x) cols
    (claimUpdateRow cols rowBase ((cols + 1) / 2)
      (linPredictRow cols rowBase ((cols + 1) / 2) B))

/-- On the row `[0,255,0,255]` the code's horizontal pass leaves the first
average sample at `0`, the spec's described pass (with the update step) makes
it `7`, and the full one-level forward Linear transform of a 4×2 buffer of
such rows also outputs `0` there: the update step is absent from the code. -/
theorem linear_update_step_missing :
    linRowH 4 4 0 (fun i => if i % 2 = 1 then 255 else 0) 0 = 0 ∧
    claimFwdLinearRow 4 0 (fun i => if i % 2 = 1 then 255 else 0) 0 = 7 ∧
    waveletFwdLinear 4 2 1 false 0 (fun i => if i % 2 = 1 then 255 else 0) 0
      = 0 := by
  refine ⟨by decide, by decide, by decide⟩

/-- C5 (amended): the current forward Linear transform performs **no** update
step: with one level and squash disabled, every sample of the average band is
the corresponding even input sample unchanged (`out[r*w+k] = in[2r*w+2k]`),
not `clamp(even + ((diff1+diff2)>>5), 0, 255)` as the spec describes. -/
theorem fwdLinear_no_update (w h sqbias : Nat) (B : Buf)
    (hw2 : w % 2 = 0) (hh2 : h % 2 = 0) (hw : 0 < w)
    (r k : Nat) (hr : r < h / 2) (hk : k < w / 2) :
    waveletFwdLinear w h 1 false sqbias B (r * w + k)
      = rd B (2 * r * w + 2 * k) := by
  have hstep : waveletFwdLinear w h 1 false sqbias B
      = linColsV w w h false 1 1 sqbias (linRowsH w w h B) := rfl
  rw [hstep]
  obtain ⟨hA, _⟩ := linColsV_eq w w h 1 1 sqbias (linRowsH w w h B) hh2
    (le_refl w) w (le_refl w)
  have hcols : linColsV w w h false 1 1 sqbias (linRowsH w w h B) (r * w + k)
      = rd (linRowsH w w h B) (2 * r * w + k) := hA r k hr (by omega)
  rw [hcols]
  obtain ⟨hR, _⟩ := linRowsH_eq w w B hw2 (le_refl w) h
  show linRowsH w w h B (2 * r * w + k) % 256 = _
  rw [hR (2 * r) k (by omega) hk]
  exact Nat.mod_eq_of_lt (rd_lt_256 _ _)

theorem fwdLinear_no_update_witness :
    ((2 : Nat) % 2 = 0 ∧ (2 : Nat) % 2 = 0 ∧ (0 : Nat) < 2 ∧
      (0 : Nat) < 2 / 2 ∧ (0 : Nat) < 2 / 2) ∧
    waveletFwdLinear 2 2 1 false 0 (fun i => if i = 0 then 9 else 0) (0 * 2 + 0)
      = rd (fun i => if i = 0 then 9 else 0) (2 * 0 * 2 + 2 * 0) :=
  ⟨by decide, fwdLinear_no_update 2 2 0 (fun i => if i = 0 then 9 else 0)
    (by decide) (by decide) (by decide) 0 0 (by decide) (by decide)⟩

/-! ## Read-off of the inverse-linear passes -/

theorem invLinColBufCopy_rd (w rows x : Nat) (B : Buf) (k : Nat)
    (hk : k < rows) :
    rd (invLinColBufCopy w rows x B) k = rd B (k * w + x) := by
  show invLinColBufCopy w rows x B k % 256 = _
  unfold invLinColBufCopy
  rw [wr1_hit _ _ rows zeroBuf k hk (fun k' h1 h2 => by omega)]
  exact Nat.mod_eq_of_lt (rd_lt_256 _ _)

theorem invLinCol_eq (w rows x : Nat) (B : Buf) :
    invLinCol w rows x B = invLinRestoreCol w rows x ((rows + 1) / 2)
      (wr2 (fun k => 2 * k * w + x) (fun k => (2 * k + 1) * w + x)
        (fun k => rd (invLinColBufCopy w rows x B) k)
        (fun k => rd (invLinColBufCopy w rows x B) ((rows + 2 * k) / 2))
        ((rows + 1) / 2) B) := rfl

theorem invLinInterCol_even (w rows x : Nat) (B : Buf) (hr : rows % 2 = 0)
    (hw : 0 < w) (hxw : x < w) (k : Nat) (hk : k < rows / 2) :
    wr2 (fun k' => 2 * k' * w + x) (fun k' => (2 * k' + 1) * w + x)
        (fun k' => rd (invLinColBufCopy w rows x B) k')
        (fun k' => rd (invLinColBufCopy w rows x B) ((rows + 2 * k') / 2))
        ((rows + 1) / 2) B (2 * k * w + x)
      = rd B (k * w + x) := by
  rw [show (2 * k * w + x : Nat) = (2 * k) * w + x from rfl,
    wr2_hit1 _ _ _ _ _ _ k (by omega)
      (fun k' h1 h2 heq =>
        absurd (coord_inj w x x (2 * k') (2 * k) hxw hxw heq).1 (by omega))
      (fun k' h1 h2 heq =>
        absurd (coord_inj w x x (2 * k' + 1) (2 * k) hxw hxw heq).1 (by omega))]
  exact invLinColBufCopy_rd w rows x B k (by omega)

theorem invLinInterCol_odd (w rows x : Nat) (B : Buf) (hr : rows % 2 = 0)
    (hw : 0 < w) (hxw : x < w) (k : Nat) (hk : k < rows / 2) :
    wr2 (fun k' => 2 * k' * w + x) (fun k' => (2 * k' + 1) * w + x)
        (fun k' => rd (invLinColBufCopy w rows x B) k')
        (fun k' => rd (invLinColBufCopy w rows x B) ((rows + 2 * k') / 2))
        ((rows + 1) / 2) B ((2 * k + 1) * w + x)
      = rd B ((rows / 2 + k) * w + x) := by
  rw [wr2_hit2 _ _ _ _ _ _ k (by omega)
    (fun k' h1 h2 heq =>
      absurd (coord_inj w x x (2 * k') (2 * k + 1) hxw hxw heq).1 (by omega))
    (fun k' h1 h2 heq =>
      absurd (coord_inj w x x (2 * k' + 1) (2 * k + 1) hxw hxw heq).1
        (by omega))]
  rw [show (rows + 2 * k) / 2 = rows / 2 + k from by omega]
  exact invLinColBufCopy_rd w rows x B (rows / 2 + k) (by omega)

theorem invLinInterCol_out (w rows x : Nat) (B : Buf) (hr : rows % 2 = 0)
    (j : Nat) (hj : ∀ y, y < rows → j ≠ y * w + x) :
    wr2 (fun k' => 2 * k' * w + x) (fun k' => (2 * k' + 1) * w + x)
        (fun k' => rd (invLinColBufCopy w rows x B) k')
        (fun k' => rd (invLinColBufCopy w rows x B) ((rows + 2 * k') / 2))
        ((rows + 1) / 2) B j
      = B j := by
  exact wr2_untouched _ _ _ _ _ _ j
    (fun k hk heq => hj (2 * k) (by omega) heq.symm)
    (fun k hk heq => hj (2 * k + 1) (by omega) heq.symm)

/-- One-step unfolding of the vertical restore loop of the inverse. -/
theorem invLinRestoreCol_succ (w rows x m : Nat) (B : Buf) :
    invLinRestoreCol w rows x (m + 1) B
      = upd (invLinRestoreCol w rows x m B) (2 * m * w + x + w)
          (clampU8
            (sext (rd (invLinRestoreCol w rows x m B) (2 * m * w + x + w)) * 2
              + (((rd (invLinRestoreCol w rows x m B) (2 * m * w + x)
                  + rd (invLinRestoreCol w rows x m B)
                    (if 2 * m + 2 < rows then 2 * m * w + x + w + w
                     else 2 * m * w + x)) >>> 1 : Nat) : Int))) := rfl

theorem invLinRestoreCol_untouched (w rows x n : Nat) (B : Buf) (j : Nat)
    (hj : ∀ k, k < n → j ≠ 2 * k * w + x + w) :
    invLinRestoreCol w rows x n B j = B j := by
  induction n with
  | zero => rfl
  | succ m ih =>
      rw [invLinRestoreCol_succ, upd_ne _ _ _ _ (hj m (by omega))]
      exact ih (fun k hk => hj k (by omega))

theorem clampU8_of_le (a : Nat) (ha : a ≤ 255) : clampU8 (a : Int) = a := by
  unfold clampU8 clamp255
  rw [if_neg (by omega), if_neg (by omega)]
  omega

theorem invLinRestoreCol_const (w rows x a : Nat) (B : Buf) (ha : a ≤ 255)
    (hr : rows % 2 = 0) (hw : 0 < w) (hxw : x < w)
    (heven : ∀ k, k < (rows + 1) / 2 → rd B (2 * k * w + x) = a)
    (hodd : ∀ k, k < rows / 2 → rd B (2 * k * w + x + w) = 0) :
    ∀ n, n ≤ (rows + 1) / 2 →
      (∀ k, k < n → invLinRestoreCol w rows x n B (2 * k * w + x + w) = a) ∧
      (∀ j, (∀ k, k < n → j ≠ 2 * k * w + x + w) →
        invLinRestoreCol w rows x n B j = B j) := by
  intro n
  induction n with
  | zero => exact fun _ => ⟨fun k hk => by omega, fun j hj => rfl⟩
  | succ m ih =>
      intro hm
      obtain ⟨ih1, ih2⟩ := ih (by omega)
      have huB : ∀ i, (∀ k, k < m → i ≠ 2 * k * w + x + w) →
          rd (invLinRestoreCol w rows x m B) i = rd B i := by
        intro i hi
        exact rd_ext _ _ _ (invLinRestoreCol_untouched w rows x m B i hi)
      have he1 : rd (invLinRestoreCol w rows x m B) (2 * m * w + x) = a := by
        rw [huB _ (fun k hk heq => by
          have h1 : 2 * k * w + x + w = (2 * k + 1) * w + x := by ring
          rw [h1, show (2 * m * w + x : Nat) = (2 * m) * w + x from rfl] at heq
          have := (coord_inj w x x (2 * m) (2 * k + 1) hxw hxw heq).1
          omega)]
        exact heven m (by omega)
      have he2 : rd (invLinRestoreCol w rows x m B)
          (if 2 * m + 2 < rows then 2 * m * w + x + w + w
           else 2 * m * w + x) = a := by
        by_cases hlt : 2 * m + 2 < rows
        · rw [if_pos hlt]
          rw [huB _ (fun k hk heq => by
            have h1 : 2 * k * w + x + w = (2 * k + 1) * w + x := by ring
            have h2 : 2 * m * w + x + w + w = (2 * m + 2) * w + x := by ring
            rw [h1, h2] at heq
            have := (coord_inj w x x (2 * m + 2) (2 * k + 1) hxw hxw heq).1
            omega)]
          rw [show (2 * m * w + x + w + w : Nat) = 2 * (m + 1) * w + x from
            by ring]
          exact heven (m + 1) (by omega)
        · rw [if_neg hlt]
          exact he1
      have hoddc : rd (invLinRestoreCol w rows x m B) (2 * m * w + x + w)
          = 0 := by
        rw [huB _ (fun k hk heq => by
          have h1 : 2 * k * w + x + w = (2 * k + 1) * w + x := by ring
          have h2 : 2 * m * w + x + w = (2 * m + 1) * w + x := by ring
          rw [h1, h2] at heq
          have := (coord_inj w x x (2 * m + 1) (2 * k + 1) hxw hxw heq).1
          omega)]
        exact hodd m (by omega)
      constructor
      · intro k hk
        by_cases hkm : k = m
        · subst hkm
          rw [invLinRestoreCol_succ, upd_self, he1, he2, hoddc]
          have hp : ((a + a) >>> 1 : Nat) = a := by
            rw [shiftRight_one_div]
            omega
          rw [hp, show sext 0 = 0 from by decide]
          norm_num
          exact clampU8_of_le a ha
        · rw [invLinRestoreCol_succ, upd_ne _ _ _ _ (fun heq => by
            have h1 : 2 * k * w + x + w = (2 * k + 1) * w + x := by ring
            have h2 : 2 * m * w + x + w = (2 * m + 1) * w + x := by ring
            rw [h1, h2] at heq
            have := (coord_inj w x x (2 * k + 1) (2 * m + 1) hxw hxw heq).1
            omega)]
          exact ih1 k (by omega)
      · intro j hj
        rw [invLinRestoreCol_succ, upd_ne _ _ _ _ (hj m (by omega))]
        exact ih2 j (fun k hk => hj k (by omega))

theorem invLinCol_out (w rows x : Nat) (B : Buf) (hr : rows % 2 = 0)
    (j : Nat) (hj : ∀ y, y < rows → j ≠ y * w + x) :
    invLinCol w rows x B j = B j := by
  rw [invLinCol_eq,
    invLinRestoreCol_untouched _ _ _ _ _ j (fun k hk heq => by
      have h1 : 2 * k * w + x + w = (2 * k + 1) * w + x := by ring
      rw [h1] at heq
      exact hj (2 * k + 1) (by omega) heq)]
  exact invLinInterCol_out w rows x B hr j hj

theorem invLinCol_const (w rows x a : Nat) (B : Buf) (ha : a ≤ 255)
    (hr : rows % 2 = 0) (hw : 0 < w) (hxw : x < w)
    (hcol : ∀ y, y < rows →
      rd B (y * w + x) = if y < rows / 2 then a else 0) :
    ∀ y, y < rows → invLinCol w rows x B (y * w + x) = a := by
  have hIeven : ∀ k, k < (rows + 1) / 2 →
      rd (wr2 (fun k' => 2 * k' * w + x) (fun k' => (2 * k' + 1) * w + x)
        (fun k' => rd (invLinColBufCopy w rows x B) k')
        (fun k' => rd (invLinColBufCopy w rows x B) ((rows + 2 * k') / 2))
        ((rows + 1) / 2) B) (2 * k * w + x) = a := by
    intro k hk
    show wr2 _ _ _ _ ((rows + 1) / 2) B (2 * k * w + x) % 256 = a
    rw [invLinInterCol_even w rows x B hr hw hxw k (by omega)]
    rw [Nat.mod_eq_of_lt (rd_lt_256 _ _), hcol k (by omega),
      if_pos (by omega)]
  have hIodd : ∀ k, k < rows / 2 →
      rd (wr2 (fun k' => 2 * k' * w + x) (fun k' => (2 * k' + 1) * w + x)
        (fun k' => rd (invLinColBufCopy w rows x B) k')
        (fun k' => rd (invLinColBufCopy w rows x B) ((rows + 2 * k') / 2))
        ((rows + 1) / 2) B) (2 * k * w + x + w) = 0 := by
    intro k hk
    show wr2 _ _ _ _ ((rows + 1) / 2) B (2 * k * w + x + w) % 256 = 0
    rw [show (2 * k * w + x + w : Nat) = (2 * k + 1) * w + x from by ring,
      invLinInterCol_odd w rows x B hr hw hxw k hk,
      Nat.mod_eq_of_lt (rd_lt_256 _ _), hcol (rows / 2 + k) (by omega),
      if_neg (by omega)]
  obtain ⟨hres1, hres2⟩ := invLinRestoreCol_const w rows x a
    (wr2 (fun k' => 2 * k' * w + x) (fun k' => (2 * k' + 1) * w + x)
      (fun k' => rd (invLinColBufCopy w rows x B) k')
      (fun k' => rd (invLinColBufCopy w rows x B) ((rows + 2 * k') / 2))
      ((rows + 1) / 2) B) ha hr hw hxw hIeven hIodd
    ((rows + 1) / 2) (le_refl _)
  intro y hy
  rw [invLinCol_eq]
  by_cases hye : y % 2 = 0
  · rw [invLinRestoreCol_untouched _ _ _ _ _ (y * w + x) (fun k hk heq => by
      have h1 : 2 * k * w + x + w = (2 * k + 1) * w + x := by ring
      rw [h1] at heq
      have := (coord_inj w x x y (2 * k + 1) hxw hxw heq).1
      omega)]
    conv_lhs => rw [show y = 2 * (y / 2) from by omega]
    rw [invLinInterCol_even w rows x B hr hw hxw (y / 2) (by omega),
      hcol (y / 2) (by omega), if_pos (by omega)]
  · conv_lhs => rw [show (y * w + x : Nat) = 2 * (y / 2) * w + x + w from by
      rw [show (2 * (y / 2) * w + x + w : Nat) = (2 * (y / 2) + 1) * w + x
        from by ring, show 2 * (y / 2) + 1 = y from by omega]]
    exact hres1 (y / 2) (by omega)

theorem invLinCols_pat (w cols rows c : Nat) (B : Buf) (hc : c ≤ 255)
    (hr : rows % 2 = 0) (hcw : cols ≤ w) (hw : 0 < w)
    (hpat : ∀ y x, y < rows → x < cols →
      rd B (y * w + x) = if x < cols / 2 ∧ y < rows / 2 then c else 0) :
    ∀ m, m ≤ cols →
      (∀ y x, y < rows → x < m →
        ip (fun x' L => invLinCol w rows x' L) m B (y * w + x)
          = if x < cols / 2 then c else 0) ∧
      (∀ j, (∀ y x, y < rows → x < m → j ≠ y * w + x) →
        ip (fun x' L => invLinCol w rows x' L) m B j = B j) := by
  intro m
  induction m with
  | zero => exact fun _ => ⟨fun y x hy hx => by omega, fun j hj => rfl⟩
  | succ m ih =>
      intro hm
      obtain ⟨ih1, ih2⟩ := ih (by omega)
      have hmw : m < w := by omega
      have hstep : ip (fun x' L => invLinCol w rows x' L) (m + 1) B
          = invLinCol w rows m
            (ip (fun x' L => invLinCol w rows x' L) m B) := rfl
      have hcolm : ∀ y, y < rows →
          rd (ip (fun x' L => invLinCol w rows x' L) m B) (y * w + m)
            = if y < rows / 2 then (if m < cols / 2 then c else 0) else 0 := by
        intro y hy
        rw [rd_ext _ B _ (ih2 (y * w + m) (fun y' x' hy' hx' heq =>
          absurd (coord_inj w m x' y y' hmw (by omega) heq).2 (by omega))),
          hpat y m hy (by omega)]
        by_cases hyh : y < rows / 2
        · rw [if_pos hyh]
          by_cases hmh : m < cols / 2
          · rw [if_pos hmh, if_pos ⟨hmh, hyh⟩]
          · rw [if_neg hmh, if_neg (fun hcon => hmh hcon.1)]
        · rw [if_neg hyh, if_neg (fun hcon => hyh hcon.2)]
      have hcolm' : ∀ y, y < rows →
          rd (ip (fun x' L => invLinCol w rows x' L) m B) (y * w + m)
            = if y < rows / 2 then (if m < cols / 2 then c else 0)
              else 0 := hcolm
      constructor
      · intro y x hy hx
        rw [hstep]
        by_cases hxm : x = m
        · subst hxm
          have hgoal := invLinCol_const w rows x (if x < cols / 2 then c else 0)
            (ip (fun x' L => invLinCol w rows x' L) x B)
            (by split <;> omega) hr hw (by omega)
            (fun y' hy' => by rw [hcolm' y' hy']) y hy
          exact hgoal
        · rw [invLinCol_out w rows m _ hr (y * w + x)
            (fun y' hy' heq =>
              absurd (coord_inj w x m y y' (by omega) hmw heq).2 hxm)]
          exact ih1 y x hy (by omega)
      · intro j hj
        rw [hstep, invLinCol_out w rows m _ hr j
          (fun y' hy' => hj y' m hy' (by omega))]
        exact ih2 j (fun y x hy hx => hj y x hy (by omega))

theorem invLinRowBufCopy_rd (cols rowBase : Nat) (B : Buf) (k : Nat)
    (hk : k < cols) :
    rd (invLinRowBufCopy cols rowBase B) k = rd B (rowBase + k) := by
  show invLinRowBufCopy cols rowBase B k % 256 = _
  unfold invLinRowBufCopy
  rw [wr1_hit _ _ cols zeroBuf k hk (fun k' h1 h2 => by omega)]
  exact Nat.mod_eq_of_lt (rd_lt_256 _ _)

theorem invLinRow_eq (w cols rowBase : Nat) (B : Buf) :
    invLinRow w cols rowBase B = invLinRestoreRow cols rowBase ((cols + 1) / 2)
      (wr2 (fun k => rowBase + 2 * k) (fun k => rowBase + 2 * k + 1)
        (fun k => rd (invLinRowBufCopy cols rowBase B) k)
        (fun k => rd (invLinRowBufCopy cols rowBase B) ((cols + 2 * k) / 2))
        ((cols + 1) / 2) B) := rfl

theorem invLinInterRow_even (cols rowBase : Nat) (B : Buf) (hc : cols % 2 = 0)
    (k : Nat) (hk : k < cols / 2) :
    wr2 (fun k' => rowBase + 2 * k') (fun k' => rowBase + 2 * k' + 1)
        (fun k' => rd (invLinRowBufCopy cols rowBase B) k')
        (fun k' => rd (invLinRowBufCopy cols rowBase B) ((cols + 2 * k') / 2))
        ((cols + 1) / 2) B (rowBase + 2 * k)
      = rd B (rowBase + k) := by
  rw [wr2_hit1 _ _ _ _ _ _ k (by omega)
    (fun k' h1 h2 => by omega) (fun k' h1 h2 => by omega)]
  exact invLinRowBufCopy_rd cols rowBase B k (by omega)

theorem invLinInterRow_odd (cols rowBase : Nat) (B : Buf) (hc : cols % 2 = 0)
    (k : Nat) (hk : k < cols / 2) :
    wr2 (fun k' => rowBase + 2 * k') (fun k' => rowBase + 2 * k' + 1)
        (fun k' => rd (invLinRowBufCopy cols rowBase B) k')
        (fun k' => rd (invLinRowBufCopy cols rowBase B) ((cols + 2 * k') / 2))
        ((cols + 1) / 2) B (rowBase + 2 * k + 1)
      = rd B (rowBase + (cols / 2 + k)) := by
  rw [wr2_hit2 _ _ _ _ _ _ k (by omega)
    (fun k' h1 h2 => by omega) (fun k' h1 h2 => by omega),
    show (cols + 2 * k) / 2 = cols / 2 + k from by omega]
  exact invLinRowBufCopy_rd cols rowBase B (cols / 2 + k) (by omega)

theorem invLinInterRow_out (cols rowBase : Nat) (B : Buf) (hc : cols % 2 = 0)
    (j : Nat) (hj : ¬(rowBase ≤ j ∧ j < rowBase + cols)) :
    wr2 (fun k' => rowBase + 2 * k') (fun k' => rowBase + 2 * k' + 1)
        (fun k' => rd (invLinRowBufCopy cols rowBase B) k')
        (fun k' => rd (invLinRowBufCopy cols rowBase B) ((cols + 2 * k') / 2))
        ((cols + 1) / 2) B j
      = B j := by
  exact wr2_untouched _ _ _ _ _ _ j
    (fun k hk => by omega) (fun k hk => by omega)

/-- One-step unfolding of the horizontal restore loop of the inverse. -/
theorem invLinRestoreRow_succ (cols rowBase m : Nat) (B : Buf) :
    invLinRestoreRow cols rowBase (m + 1) B
      = upd (invLinRestoreRow cols rowBase m B) (rowBase + 2 * m + 1)
          (clampU8
            (sext (rd (invLinRestoreRow cols rowBase m B)
                (rowBase + 2 * m + 1)) * 2
              + (((rd (invLinRestoreRow cols rowBase m B) (rowBase + 2 * m)
                  + rd (invLinRestoreRow cols rowBase m B)
                    (rowBase + 2 * m
                      + (if 2 * m + 2 < cols then 2 else 0))) >>> 1 : Nat)
                : Int))) := rfl

theorem invLinRestoreRow_untouched (cols rowBase n : Nat) (B : Buf) (j : Nat)
    (hj : ∀ k, k < n → j ≠ rowBase + 2 * k + 1) :
    invLinRestoreRow cols rowBase n B j = B j := by
  induction n with
  | zero => rfl
  | succ m ih =>
      rw [invLinRestoreRow_succ, upd_ne _ _ _ _ (hj m (by omega))]
      exact ih (fun k hk => hj k (by omega))

theorem invLinRestoreRow_const (cols rowBase a : Nat) (B : Buf) (ha : a ≤ 255)
    (hc : cols % 2 = 0)
    (heven : ∀ k, k < (cols + 1) / 2 → rd B (rowBase + 2 * k) = a)
    (hodd : ∀ k, k < cols / 2 → rd B (rowBase + 2 * k + 1) = 0) :
    ∀ n, n ≤ (cols + 1) / 2 →
      (∀ k, k < n → invLinRestoreRow cols rowBase n B (rowBase + 2 * k + 1)
        = a) ∧
      (∀ j, (∀ k, k < n → j ≠ rowBase + 2 * k + 1) →
        invLinRestoreRow cols rowBase n B j = B j) := by
  intro n
  induction n with
  | zero => exact fun _ => ⟨fun k hk => by omega, fun j hj => rfl⟩
  | succ m ih =>
      intro hm
      obtain ⟨ih1, ih2⟩ := ih (by omega)
      have huB : ∀ i, (∀ k, k < m → i ≠ rowBase + 2 * k + 1) →
          rd (invLinRestoreRow cols rowBase m B) i = rd B i := by
        intro i hi
        exact rd_ext _ _ _ (invLinRestoreRow_untouched cols rowBase m B i hi)
      have he1 : rd (invLinRestoreRow cols rowBase m B) (rowBase + 2 * m)
          = a := by
        rw [huB _ (fun k hk => by omega)]
        exact heven m (by omega)
      have he2 : rd (invLinRestoreRow cols rowBase m B)
          (rowBase + 2 * m + (if 2 * m + 2 < cols then 2 else 0)) = a := by
        by_cases hlt : 2 * m + 2 < cols
        · rw [if_pos hlt, huB _ (fun k hk => by omega),
            show rowBase + 2 * m + 2 = rowBase + 2 * (m + 1) from by ring]
          exact heven (m + 1) (by omega)
        · rw [if_neg hlt]
          exact he1
      have hoddc : rd (invLinRestoreRow cols rowBase m B)
          (rowBase + 2 * m + 1) = 0 := by
        rw [huB _ (fun k hk => by omega)]
        exact hodd m (by omega)
      constructor
      · intro k hk
        by_cases hkm : k = m
        · subst hkm
          rw [invLinRestoreRow_succ, upd_self, he1, he2, hoddc]
          have hp : ((a + a) >>> 1 : Nat) = a := by
            rw [shiftRight_one_div]
            omega
          rw [hp, show sext 0 = 0 from by decide]
          norm_num
          exact clampU8_of_le a ha
        · rw [invLinRestoreRow_succ, upd_ne _ _ _ _ (by omega)]
          exact ih1 k (by omega)
      · intro j hj
        rw [invLinRestoreRow_succ, upd_ne _ _ _ _ (hj m (by omega))]
        exact ih2 j (fun k hk => hj k (by omega))

theorem invLinRow_out (w cols rowBase : Nat) (B : Buf) (hc : cols % 2 = 0)
    (j : Nat) (hj : ¬(rowBase ≤ j ∧ j < rowBase + cols)) :
    invLinRow w cols rowBase B j = B j := by
  rw [invLinRow_eq,
    invLinRestoreRow_untouched _ _ _ _ j (fun k hk => by omega)]
  exact invLinInterRow_out cols rowBase B hc j hj

theorem invLinRow_const (w cols rowBase a : Nat) (B : Buf) (ha : a ≤ 255)
    (hc : cols % 2 = 0)
    (hrow : ∀ z, z < cols →
      rd B (rowBase + z) = if z < cols / 2 then a else 0) :
    ∀ z, z < cols → invLinRow w cols rowBase B (rowBase + z) = a := by
  have hIeven : ∀ k, k < (cols + 1) / 2 →
      rd (wr2 (fun k' => rowBase + 2 * k') (fun k' => rowBase + 2 * k' + 1)
        (fun k' => rd (invLinRowBufCopy cols rowBase B) k')
        (fun k' => rd (invLinRowBufCopy cols rowBase B) ((cols + 2 * k') / 2))
        ((cols + 1) / 2) B) (rowBase + 2 * k) = a := by
    intro k hk
    show wr2 _ _ _ _ ((cols + 1) / 2) B (rowBase + 2 * k) % 256 = a
    rw [invLinInterRow_even cols rowBase B hc k (by omega),
      Nat.mod_eq_of_lt (rd_lt_256 _ _), hrow k (by omega), if_pos (by omega)]
  have hIodd : ∀ k, k < cols / 2 →
      rd (wr2 (fun k' => rowBase + 2 * k') (fun k' => rowBase + 2 * k' + 1)
        (fun k' => rd (invLinRowBufCopy cols rowBase B) k')
        (fun k' => rd (invLinRowBufCopy cols rowBase B) ((cols + 2 * k') / 2))
        ((cols + 1) / 2) B) (rowBase + 2 * k + 1) = 0 := by
    intro k hk
    show wr2 _ _ _ _ ((cols + 1) / 2) B (rowBase + 2 * k + 1) % 256 = 0
    rw [invLinInterRow_odd cols rowBase B hc k hk,
      Nat.mod_eq_of_lt (rd_lt_256 _ _), hrow (cols / 2 + k) (by omega),
      if_neg (by omega)]
  obtain ⟨hres1, hres2⟩ := invLinRestoreRow_const cols rowBase a
    (wr2 (fun k' => rowBase + 2 * k') (fun k' => rowBase + 2 * k' + 1)
      (fun k' => rd (invLinRowBufCopy cols rowBase B) k')
      (fun k' => rd (invLinRowBufCopy cols rowBase B) ((cols + 2 * k') / 2))
      ((cols + 1) / 2) B) ha hc hIeven hIodd ((cols + 1) / 2) (le_refl _)
  intro z hz
  rw [invLinRow_eq]
  by_cases hze : z % 2 = 0
  · rw [invLinRestoreRow_untouched _ _ _ _ (rowBase + z)
      (fun k hk => by omega)]
    conv_lhs => rw [show rowBase + z = rowBase + 2 * (z / 2) from by omega]
    rw [invLinInterRow_even cols rowBase B hc (z / 2) (by omega),
      hrow (z / 2) (by omega), if_pos (by omega)]
  · conv_lhs => rw [show rowBase + z = rowBase + 2 * (z / 2) + 1 from by omega]
    exact hres1 (z / 2) (by omega)

theorem invLinRows_const (w cols rows c : Nat) (B : Buf) (hc : c ≤ 255)
    (h2 : cols % 2 = 0) (hcw : cols ≤ w) (hw : 0 < w)
    (hconst : ∀ y z, y < rows → z < cols →
      rd B (y * w + z) = if z < cols / 2 then c else 0) :
    ∀ n, n ≤ rows →
      (∀ y x, y < n → x < cols → invLinRows w cols n B (y * w + x) = c) ∧
      (∀ j, (∀ y x, y < n → x < cols → j ≠ y * w + x) →
        invLinRows w cols n B j = B j) := by
  intro n
  induction n with
  | zero => exact fun _ => ⟨fun y x hy hx => by omega, fun j hj => rfl⟩
  | succ m ih =>
      intro hn
      obtain ⟨ih1, ih2⟩ := ih (by omega)
      have hstep : invLinRows w cols (m + 1) B
          = invLinRow w cols (m * w) (invLinRows w cols m B) := rfl
      have hrowm : ∀ z, z < cols →
          rd (invLinRows w cols m B) (m * w + z)
            = if z < cols / 2 then c else 0 := by
        intro z hz
        rw [rd_ext _ B _ (ih2 (m * w + z) (fun y' x' hy' hx' heq => by
          have hlt := row_lt_row w y' m x' 0 (lt_of_lt_of_le hx' hcw) hy'
          omega))]
        exact hconst m z (by omega) hz
      constructor
      · intro y x hy hx
        rw [hstep]
        by_cases hym : y = m
        · subst hym
          exact invLinRow_const w cols (y * w) c _ hc h2 hrowm x hx
        · have hy' : y < m := by omega
          rw [invLinRow_out w cols (m * w) _ h2]
          · exact ih1 y x hy' hx
          · intro hcontra
            have hlt := row_lt_row w y m x 0 (by omega) hy'
            omega
      · intro j hj
        rw [hstep, invLinRow_out w cols (m * w) _ h2]
        · exact ih2 j (fun y x hy hx => hj y x (by omega) hx)
        · intro hcontra
          exact hj m (j - m * w) (by omega) (by omega) (by omega)

/-- One inverse-linear level on the `[c|0]` pattern restores the constant
`c` over the whole processed rectangle and leaves the rest untouched. -/
theorem invLinearLevel_const (w h level c : Nat) (B : Buf)
    (hc255 : c ≤ 255) (hw : 0 < w)
    (hc2 : (w >>> (level - 1)) % 2 = 0) (hr2 : (h >>> (level - 1)) % 2 = 0)
    (hpat : ∀ y x, y < h >>> (level - 1) → x < w >>> (level - 1) →
      rd B (y * w + x) =
        if x < (w >>> (level - 1)) / 2 ∧ y < (h >>> (level - 1)) / 2 then c
        else 0) :
    (∀ y x, y < h >>> (level - 1) → x < w >>> (level - 1) →
      invLinearLevel w h level B (y * w + x) = c) ∧
    (∀ j, (∀ y x, y < h >>> (level - 1) → x < w >>> (level - 1) →
        j ≠ y * w + x) →
      invLinearLevel w h level B j = B j) := by
  have hcw : w >>> (level - 1) ≤ w := shiftRight_le_self _ _
  have hbody : invLinearLevel w h level B
      = invLinRows w (w >>> (level - 1)) (h >>> (level - 1))
        (ip (fun x' L => invLinCol w (h >>> (level - 1)) x' L)
          (w >>> (level - 1)) B) := rfl
  obtain ⟨hcolA, hcolB⟩ := invLinCols_pat w (w >>> (level - 1))
    (h >>> (level - 1)) c B hc255 hr2 hcw hw hpat (w >>> (level - 1))
    (le_refl _)
  have hafter : ∀ y x, y < h >>> (level - 1) → x < w >>> (level - 1) →
      rd (ip (fun x' L => invLinCol w (h >>> (level - 1)) x' L)
          (w >>> (level - 1)) B) (y * w + x)
        = if x < (w >>> (level - 1)) / 2 then c else 0 := by
    intro y x hy hx
    show ip _ (w >>> (level - 1)) B (y * w + x) % 256 = _
    rw [hcolA y x hy hx]
    split <;> omega
  obtain ⟨hrowsA, hrowsB⟩ := invLinRows_const w (w >>> (level - 1))
    (h >>> (level - 1)) c
    (ip (fun x' L => invLinCol w (h >>> (level - 1)) x' L)
      (w >>> (level - 1)) B) hc255 hc2 hcw hw hafter
    (h >>> (level - 1)) (le_refl _)
  constructor
  · intro y x hy hx
    rw [hbody]
    exact hrowsA y x hy hx
  · intro j hj
    rw [hbody, hrowsB j hj]
    exact hcolB j hj

/-- Multi-level inverse linear transform, run on the forward transform's
constant-buffer output pattern: after `m` of the `levels` inverse levels the
pattern has grown back to the `w>>>(levels-m) × h>>>(levels-m)` rectangle. -/
theorem waveletInvLinear_const_inv (w h levels c : Nat) (B : Buf)
    (hc255 : c ≤ 255) (hw : 0 < w)
    (hdw : 2 ^ levels ∣ w) (hdh : 2 ^ levels ∣ h)
    (hpat0 : ∀ y x, y < h → x < w → rd B (y * w + x)
      = if x < w >>> levels ∧ y < h >>> levels then c else 0) :
    ∀ m, m ≤ levels →
      ∀ y x, y < h → x < w →
        rd (ip (fun k L => invLinearLevel w h (levels - k) L) m B)
            (y * w + x)
          = if x < w >>> (levels - m) ∧ y < h >>> (levels - m) then c
            else 0 := by
  intro m
  induction m with
  | zero =>
      intro _ y x hy hx
      show rd B (y * w + x) = _
      rw [hpat0 y x hy hx, Nat.sub_zero]
  | succ m ih =>
      intro hm y x hy hx
      have ihm := ih (by omega)
      have hstep : ip (fun k L => invLinearLevel w h (levels - k) L)
            (m + 1) B
          = invLinearLevel w h (levels - m)
            (ip (fun k L => invLinearLevel w h (levels - k) L) m B)
          := rfl
      have hms : levels - m - 1 = levels - (m + 1) := by omega
      have hdiv2 : (w >>> (levels - (m + 1))) / 2 = w >>> (levels - m) := by
        rw [shiftRight_succ_div w (levels - (m + 1)),
          show levels - (m + 1) + 1 = levels - m from by omega]
      have hdiv2h : (h >>> (levels - (m + 1))) / 2 = h >>> (levels - m) := by
        rw [shiftRight_succ_div h (levels - (m + 1)),
          show levels - (m + 1) + 1 = levels - m from by omega]
      have hmlt : levels - (m + 1) < levels := by omega
      have hc2' : (w >>> (levels - m - 1)) % 2 = 0 := by
        rw [hms]
        exact div_pow_even w levels (levels - (m + 1)) hdw hmlt
      have hr2' : (h >>> (levels - m - 1)) % 2 = 0 := by
        rw [hms]
        exact div_pow_even h levels (levels - (m + 1)) hdh hmlt
      have hpat' : ∀ y' x', y' < h >>> (levels - m - 1) →
          x' < w >>> (levels - m - 1) →
          rd (ip (fun k L => invLinearLevel w h (levels - k) L) m B)
              (y' * w + x')
            = if x' < (w >>> (levels - m - 1)) / 2 ∧
                y' < (h >>> (levels - m - 1)) / 2 then c else 0 := by
        rw [hms]
        intro y' x' hy' hx'
        rw [ihm y' x'
          (lt_of_lt_of_le hy' (shiftRight_le_self h _))
          (lt_of_lt_of_le hx' (shiftRight_le_self w _)),
          hdiv2, hdiv2h]
      obtain ⟨hlev1, hlev2⟩ := invLinearLevel_const w h (levels - m) c
        (ip (fun k L => invLinearLevel w h (levels - k) L) m B)
        hc255 hw hc2' hr2' hpat'
      rw [hms] at hlev1 hlev2
      rw [hstep]
      by_cases hin : x < w >>> (levels - (m + 1)) ∧ y < h >>> (levels - (m + 1))
      · show invLinearLevel w h (levels - m) _ (y * w + x) % 256 = _
        rw [hlev1 y x hin.2 hin.1, if_pos hin]
        omega
      · have huntouched := hlev2 (y * w + x) (fun y' x' hy' hx' heq =>
          hin ⟨by
            have := (coord_inj w x x' y y' hx
              (lt_of_lt_of_le hx' (shiftRight_le_self w _)) heq).2
            omega, by
            have := (coord_inj w x x' y y' hx
              (lt_of_lt_of_le hx' (shiftRight_le_self w _)) heq).1
            omega⟩)
        show rd (invLinearLevel w h (levels - m) _) (y * w + x) = _
        rw [rd_ext _ _ _ huntouched, ihm y x hy hx]
        have hw2 : w >>> (levels - m) ≤ w >>> (levels - (m + 1)) := by
          rw [← hdiv2]; exact Nat.div_le_self _ _
        have hh2 : h >>> (levels - m) ≤ h >>> (levels - (m + 1)) := by
          rw [← hdiv2h]; exact Nat.div_le_self _ _
        rw [if_neg (fun hcon => hin ⟨by omega, by omega⟩), if_neg hin]

/-! ## C2 — Linear round-trip -/

/-- C2 counterexample: the 2×2 buffer `[0,1,0,1]` (dimensions divisible by
`2^1`) does not survive forward Linear followed by inverse Linear: sample 1
comes back as 0, because the forward predict stores the residual at half
scale, dropping its least-significant bit. -/
theorem linear_roundtrip_not_exact :
    (2 : Nat) % 2 ^ 1 = 0 ∧
      waveletInvLinear 2 2 1 (waveletFwdLinear 2 2 1 false 0 (fun i => i % 2)) 1
        ≠ (fun i => i % 2 : Buf) 1 := by
  constructor
  · decide
  · decide

/-- C2 (amended): for every **constant-valued** intensity buffer whose
width and height are divisible by `2^levels`, running the forward Linear
transform (squash disabled) followed by the inverse Linear transform
reproduces the original buffer exactly, sample for sample (the inverse
Linear pass of the current revision takes no gate/gain/bias parameters at
all, so "null parameters" is vacuous). -/
theorem linear_roundtrip_const (w h levels c : Nat) (B : Buf)
    (hc255 : c ≤ 255) (hdw : 2 ^ levels ∣ w) (hdh : 2 ^ levels ∣ h)
    (hB : ∀ i, i < w * h → B i = c) :
    ∀ i, i < w * h →
      waveletInvLinear w h levels (waveletFwdLinear w h levels false 0 B) i
        = B i := by
  intro i hi
  have hw : 0 < w := by
    rcases Nat.eq_zero_or_pos w with h0 | h0
    · subst h0; omega
    · exact h0
  have hx : i % w < w := Nat.mod_lt _ hw
  have hy : i / w < h := by
    rw [Nat.div_lt_iff_lt_mul hw, mul_comm h w]
    exact hi
  have hieq : (i / w) * w + i % w = i := by
    rw [mul_comm]
    exact Nat.div_add_mod i w
  have hconst : ∀ y' x', y' < h → x' < w → rd B (y' * w + x') = c := by
    intro y' x' hy' hx'
    have hlt : y' * w + x' < w * h := by
      have := row_lt_row w y' h x' 0 hx' hy'
      rw [mul_comm w h]
      omega
    show B (y' * w + x') % 256 = c
    rw [hB _ hlt]
    omega
  rcases Nat.eq_zero_or_pos levels with hl0 | hlpos
  · subst hl0; rfl
  obtain ⟨L, rfl⟩ : ∃ L, levels = L + 1 := ⟨levels - 1, by omega⟩
  have hfwd := waveletFwdLinear_const_inv w h (L + 1) c B 0 hc255 hw hdw hdh
    hconst (L + 1) (le_refl _)
  have hinv := waveletInvLinear_const_inv w h (L + 1) c
    (waveletFwdLinear w h (L + 1) false 0 B) hc255 hw hdw hdh hfwd L (by omega)
  have hL1 : L + 1 - L = 1 := by omega
  rw [hL1] at hinv
  have hc2 : (w >>> (1 - 1)) % 2 = 0 :=
    div_pow_even w (L + 1) 0 hdw (by omega)
  have hr2 : (h >>> (1 - 1)) % 2 = 0 :=
    div_pow_even h (L + 1) 0 hdh (by omega)
  have hpat : ∀ y x, y < h >>> (1 - 1) → x < w >>> (1 - 1) →
      rd (ip (fun k L' => invLinearLevel w h (L + 1 - k) L') L
          (waveletFwdLinear w h (L + 1) false 0 B)) (y * w + x)
        = if x < (w >>> (1 - 1)) / 2 ∧ y < (h >>> (1 - 1)) / 2 then c
          else 0 := by
    intro y x hy' hx'
    rw [hinv y x hy' hx', ← shiftRight_succ_div w 0, ← shiftRight_succ_div h 0]
  obtain ⟨hfin, _⟩ := invLinearLevel_const w h 1 c
    (ip (fun k L' => invLinearLevel w h (L + 1 - k) L') L
      (waveletFwdLinear w h (L + 1) false 0 B)) hc255 hw hc2 hr2 hpat
  have hgoal := hfin (i / w) (i % w) hy hx
  rw [hieq] at hgoal
  show invLinearLevel w h (L + 1 - L)
      (ip (fun k L' => invLinearLevel w h (L + 1 - k) L') L
        (waveletFwdLinear w h (L + 1) false 0 B)) i = B i
  rw [hL1, hgoal, hB i hi]

/-- C2 witness: a 2×2 constant buffer of value 100 at one level survives
the Linear round trip (checks the theorem's hypotheses and conclusion at a
concrete instance). -/
theorem linear_roundtrip_const_witness :
    ((100 : Nat) ≤ 255 ∧ (2 : Nat) ^ 1 ∣ 2 ∧
      (∀ i, i < 2 * 2 → (fun _ => 100 : Buf) i = 100) ∧ (0 : Nat) < 2 * 2) ∧
      waveletInvLinear 2 2 1 (waveletFwdLinear 2 2 1 false 0 (fun _ => 100)) 0
        = (fun _ => 100 : Buf) 0 :=
  ⟨by decide, linear_roundtrip_const 2 2 1 100 (fun _ => 100) (by decide)
    (by decide) (by decide) (by decide) 0 (by decide)⟩
